import Mathlib

/-!
Boggle word search (`boggle.cpp`).

A shallow embedding of the search engine of `BoggleGame` and the proofs of its
specified properties.

Conventions of the embedding.

* `std::string` is `List Char`, `std::set<std::string>` is `Finset (List Char)`,
  `vector<vector<T>>` is `List (List T)`.
* `int` rows and columns are `Int` (they range over `-1 .. boardSize`);
  `boardSize` is a `Nat`: the constructor sets it to `0` and `readBoard` only
  lets `1 .. MAX_BOARD_SIZE` through, so no product overflows.
* The visited marker, the candidate string and the result set are reference
  parameters in the source; here every function returns their final values.
* The two recursive functions take a recursion budget `fuel`: one unit is
  spent per nested call, so `fuel` bounds the depth of the call stack and
  `none` means that the budget was exhausted.
* `readBoard` reads from the standard input through library extractions; the
  input is given by what these extractions deliver, and a `runtime_error` is
  the `error` case of `Except`, with the message of the source.
* The subscripts of the embedding are total. The checked runs are the same
  methods with every subscript checked, and the recorded runs the enumeration
  with a record of the arguments of every call; both are proved to agree with
  the embedding.
-/

namespace Boggle

/-! ## Data model -/

/-- The constant `constexpr int MIN_WORD_LENGTH = 4;`. -/
def MIN_WORD_LENGTH : Nat := 4

/-- The constant `constexpr int MAX_BOARD_SIZE = 20;`. -/
def MAX_BOARD_SIZE : Nat := 20

/-- The class `Lexicon` comes from `lexicon.h`, which is not part of the
sources. The game only ever calls its two queries, so a dictionary is taken
here as an arbitrary pair of answers. -/
structure Lexicon where
  /-- The query `dictionary.contains(word)`. -/
  contains : List Char → Bool
  /-- The query `dictionary.containsPrefix(prefix)`. -/
  containsPrefix : List Char → Bool

/-- The marker `vector<vector<bool>> visited`. -/
abbrev Visited := List (List Bool)

/-- The data members of `class BoggleGame`. -/
structure BoggleGame where
  board : List (List Char)
  boardSize : Nat
  dictionary : Lexicon
  player1Words : Finset (List Char) := ∅
  player2Words : Finset (List Char) := ∅
  player1Score : Int := 0
  player2Score : Int := 0

/-- The read `board[row][col]`; the source only reads inside the grid. -/
def boardAt (g : BoggleGame) (row col : Int) : Char :=
  (g.board.getD row.toNat []).getD col.toNat (Char.ofNat 0)

/-- The read `visited[row][col]`. -/
def visitedAt (visited : Visited) (row col : Int) : Bool :=
  (visited.getD row.toNat []).getD col.toNat false

/-- The write `visited[row][col] = b`. -/
def setVisited (visited : Visited) (row col : Int) (b : Bool) : Visited :=
  visited.set row.toNat ((visited.getD row.toNat []).set col.toNat b)

/-- The allocation `vector<vector<bool>> visited(boardSize, vector<bool>(boardSize, false))`. -/
def freshVisited (g : BoggleGame) : Visited :=
  List.replicate g.boardSize (List.replicate g.boardSize false)

/-- The values `0, 1, ..., boardSize - 1` of a loop `for (int i = 0; i < boardSize; i++)`. -/
def indices (g : BoggleGame) : List Int :=
  (List.range g.boardSize).map Int.ofNat

/-- The values `-1, 0, 1` of a loop `for (int i = -1; i <= 1; i++)`. -/
def deltas : List Int := [-1, 0, 1]

/-! ## Loops -/

/-- A loop `for (x : xs) { if (found) break; found = body(x); }` over a state
that the body may change. This is the shape of the loops
`for (...; ... && !found; ...)` of `findWordFromCell` and of the loops of
`findWordOnBoard`, whose `return true` leaves both loops at once. -/
def loopUntilFound {α σ : Type} (body : α → σ → Option (Bool × σ)) :
    List α → Bool → σ → Option (Bool × σ)
  | [], found, s => some (found, s)
  | x :: xs, found, s =>
    if found then some (found, s)
    else
      match body x s with
      | none => none
      | some (found', s') => loopUntilFound body xs found' s'

/-- A loop `for (x : xs) body(x);` over a state that the body may change. -/
def forEach {α σ : Type} (body : α → σ → Option σ) : List α → σ → Option σ
  | [], s => some s
  | x :: xs, s =>
    match body x s with
    | none => none
    | some s' => forEach body xs s'

/-! ## Path verification -/

/-- The method `BoggleGame::findWordFromCell`; returns the result and the
final marker. -/
def findWordFromCell (g : BoggleGame) :
    Nat → List Char → Nat → Int → Int → Visited → Option (Bool × Visited)
  | 0, _, _, _, _, _ => none
  | fuel + 1, word, index, row, col, visited =>
    if index = word.length then some (true, visited)
    else if row < 0 ∨ row ≥ g.boardSize ∨ col < 0 ∨ col ≥ g.boardSize ∨
        visitedAt visited row col = true ∨ word[index]? ≠ some (boardAt g row col) then
      some (false, visited)
    else
      match
        loopUntilFound
          (fun i v =>
            loopUntilFound
              (fun j v =>
                if i ≠ 0 ∨ j ≠ 0 then
                  findWordFromCell g fuel word (index + 1) (row + i) (col + j) v
                else some (false, v))
              deltas false v)
          deltas false (setVisited visited row col true) with
      | none => none
      | some (found, visited') => some (found, setVisited visited' row col false)

/-- The search of `BoggleGame::findWordOnBoard` after its guard: the fresh
marker and the two loops over the start cells; returns the result and the
final value of the local marker. -/
def findWordOnBoardLoop (g : BoggleGame) (fuel : Nat) (word : List Char) :
    Option (Bool × Visited) :=
  loopUntilFound
    (fun i v => loopUntilFound (fun j v => findWordFromCell g fuel word 0 i j v) (indices g) false v)
    (indices g) false (freshVisited g)

/-- The method `BoggleGame::findWordOnBoard`. -/
def findWordOnBoard (g : BoggleGame) (fuel : Nat) (word : List Char) : Option Bool :=
  if word = [] ∨ word.length > g.boardSize * g.boardSize then some false
  else (findWordOnBoardLoop g fuel word).map Prod.fst

/-! ## Enumeration -/

/-- The three reference parameters of `findAllWordsHelper`. -/
structure SearchState where
  currentWord : List Char
  visited : Visited
  allWords : Finset (List Char)
  deriving DecidableEq

/-- The method `BoggleGame::findAllWordsHelper`. -/
def findAllWordsHelper (g : BoggleGame) : Nat → Int → Int → SearchState → Option SearchState
  | 0, _, _, _ => none
  | fuel + 1, row, col, s =>
    if row < 0 ∨ row ≥ g.boardSize ∨ col < 0 ∨ col ≥ g.boardSize ∨
        visitedAt s.visited row col = true then
      some s
    else
      let currentWord := s.currentWord ++ [boardAt g row col]
      let visited := setVisited s.visited row col true
      let allWords :=
        if currentWord.length ≥ MIN_WORD_LENGTH ∧ g.dictionary.contains currentWord = true then
          insert currentWord s.allWords
        else s.allWords
      match
        (if g.dictionary.containsPrefix currentWord = true then
          forEach
            (fun i s =>
              forEach
                (fun j s =>
                  if i ≠ 0 ∨ j ≠ 0 then findAllWordsHelper g fuel (row + i) (col + j) s
                  else some s)
                deltas s)
            deltas ⟨currentWord, visited, allWords⟩
        else some ⟨currentWord, visited, allWords⟩) with
      | none => none
      | some s' => some ⟨s'.currentWord.dropLast, setVisited s'.visited row col false, s'.allWords⟩

/-- The body of `BoggleGame::findAllWords`: the empty candidate, the fresh
marker and the two loops over the start cells; returns the final state. -/
def findAllWordsLoop (g : BoggleGame) (fuel : Nat) (allWords : Finset (List Char)) :
    Option SearchState :=
  forEach
    (fun i s => forEach (fun j s => findAllWordsHelper g fuel i j s) (indices g) s)
    (indices g) ⟨[], freshVisited g, allWords⟩

/-- The method `BoggleGame::findAllWords`; returns the final result set. -/
def findAllWords (g : BoggleGame) (fuel : Nat) (allWords : Finset (List Char)) :
    Option (Finset (List Char)) :=
  (findAllWordsLoop g fuel allWords).map SearchState.allWords

/-! ## The enumeration with the minimum length as a setting

The source compares the length of a candidate with the constant
`MIN_WORD_LENGTH`. The spec describes this threshold as a configuration
constant, and its scenario on the grid `[[C,A],[T,S]]` sets it to 3. The
definitions below are the enumeration of the source with the threshold as the
parameter `minLength`; at `MIN_WORD_LENGTH` they are the methods above. -/

/-- The method `BoggleGame::toUpper`: `::toupper` applied to every character. -/
def toUpper (s : List Char) : List Char :=
  s.map Char.toUpper

/-- The method `BoggleGame::containsIgnoreCase`. -/
def containsIgnoreCase (words : Finset (List Char)) (word : List Char) : Bool :=
  decide (∃ w ∈ words, toUpper w = word)

/-- The method `BoggleGame::isValidWord`; `&&` evaluates its right operand
only when the left one holds. -/
def isValidWord (g : BoggleGame) (fuel : Nat) (word : List Char)
    (playerWords : Finset (List Char)) : Option Bool :=
  let upperWord := toUpper word
  if word.length ≥ MIN_WORD_LENGTH ∧ g.dictionary.contains upperWord = true then
    match findWordOnBoard g fuel upperWord with
    | none => none
    | some true => some (!containsIgnoreCase playerWords upperWord)
    | some false => some false
  else some false

/-! ## Reading the board -/

/-- The constructor `BoggleGame()`: the dictionary read from the word file is
the parameter `d`, the board is empty and the size and the scores are 0. -/
def newGame (d : Lexicon) : BoggleGame where
  board := []
  boardSize := 0
  dictionary := d

/-- The standard input as `readBoard` consumes it. The extractions are library
code: `size` is the outcome of `cin >> boardSize`, `none` when no `int` can be
read, and `cells` are the characters that the extractions `cin >> c` after it
deliver, one each, until the input ends. -/
structure Input where
  size : Option Int
  cells : List Char

/-- The message of the first `runtime_error` of `readBoard`. -/
def sizeError : String :=
  "Invalid board size. Must be between 1 and " ++ toString MAX_BOARD_SIZE

/-- The message of the second `runtime_error` of `readBoard`. -/
def cellError : String :=
  "Invalid input. Board must contain only alphabetic characters."

/-- The call `board.resize(n, vector<char>(n))`. -/
def resizeBoard (board : List (List Char)) (n : Nat) : List (List Char) :=
  board.take n ++ List.replicate (n - board.length) (List.replicate n (Char.ofNat 0))

/-- The read `board[row][col]` on the bare vector. -/
def charAt (board : List (List Char)) (row col : Int) : Char :=
  (board.getD row.toNat []).getD col.toNat (Char.ofNat 0)

/-- The write `board[row][col] = c`. -/
def setBoard (board : List (List Char)) (row col : Int) (c : Char) : List (List Char) :=
  board.set row.toNat ((board.getD row.toNat []).set col.toNat c)

/-- A loop `for (x : xs) body(x);` whose body may throw. -/
def forEachExcept {α σ ε : Type} (body : α → σ → Except ε σ) : List α → σ → Except ε σ
  | [], s => .ok s
  | x :: xs, s =>
    match body x s with
    | .error e => .error e
    | .ok s' => forEachExcept body xs s'

/-- The body of the loops of `readBoard` on the board and the rest of the
input: `if (!(cin >> c) || !isalpha(c)) throw ...; board[i][j] = toupper(c);`. -/
def readCell (i j : Int) (s : List (List Char) × List Char) :
    Except String (List (List Char) × List Char) :=
  match s.2 with
  | [] => .error cellError
  | c :: rest =>
    if c.isAlpha = false then .error cellError
    else .ok (setBoard s.1 i j c.toUpper, rest)

/-- The method `BoggleGame::readBoard`; `runtime_error` is the `error` case. -/
def readBoard (g : BoggleGame) (input : Input) : Except String BoggleGame :=
  match input.size with
  | none => .error sizeError
  | some n =>
    if n ≤ 0 ∨ n > MAX_BOARD_SIZE then .error sizeError
    else
      match
        forEachExcept
          (fun i s => forEachExcept (fun j s => readCell i j s)
            ((List.range n.toNat).map Int.ofNat) s)
          ((List.range n.toNat).map Int.ofNat) (resizeBoard g.board n.toNat, input.cells) with
      | .error e => .error e
      | .ok s => .ok { g with boardSize := n.toNat, board := s.1 }

/-! ## Checked runs

The same four methods, with every subscript checked: an access outside the
vector or the string stops the run with `Fault.outOfRange`. -/

/-- What stops a checked run. -/
inductive Fault where
  | outOfFuel
  | outOfRange
  deriving DecidableEq

/-- A run of the unchecked embedding seen as a checked run that met no fault
but, possibly, the exhausted budget. -/
def liftRun {α : Type} : Option α → Except Fault α
  | none => .error Fault.outOfFuel
  | some a => .ok a

/-- The read `m[row][col]` with both subscripts checked. -/
def readChecked {α : Type} (m : List (List α)) (row col : Int) : Except Fault α :=
  if row < 0 ∨ col < 0 then .error Fault.outOfRange
  else
    match m[row.toNat]? with
    | none => .error Fault.outOfRange
    | some r =>
      match r[col.toNat]? with
      | none => .error Fault.outOfRange
      | some x => .ok x

/-- The write `m[row][col] = x` with both subscripts checked. -/
def writeChecked {α : Type} (m : List (List α)) (row col : Int) (x : α) :
    Except Fault (List (List α)) :=
  if row < 0 ∨ col < 0 then .error Fault.outOfRange
  else
    match m[row.toNat]? with
    | none => .error Fault.outOfRange
    | some r =>
      if col.toNat < r.length then .ok (m.set row.toNat (r.set col.toNat x))
      else .error Fault.outOfRange

/-- The loop of `loopUntilFound` with a body that may stop the run. -/
def loopUntilFoundExcept {α σ ε : Type} (body : α → σ → Except ε (Bool × σ)) :
    List α → Bool → σ → Except ε (Bool × σ)
  | [], found, s => .ok (found, s)
  | x :: xs, found, s =>
    if found then .ok (found, s)
    else
      match body x s with
      | .error e => .error e
      | .ok (found', s') => loopUntilFoundExcept body xs found' s'

/-- The method `BoggleGame::findWordFromCell` with checked accesses; the
operands of its `||` chain are evaluated from left to right, each only when
those before it are false. -/
def findWordFromCellChecked (g : BoggleGame) :
    Nat → List Char → Nat → Int → Int → Visited → Except Fault (Bool × Visited)
  | 0, _, _, _, _, _ => .error Fault.outOfFuel
  | fuel + 1, word, index, row, col, visited =>
    if index = word.length then .ok (true, visited)
    else if row < 0 ∨ row ≥ g.boardSize ∨ col < 0 ∨ col ≥ g.boardSize then .ok (false, visited)
    else
      match readChecked visited row col with
      | .error e => .error e
      | .ok true => .ok (false, visited)
      | .ok false =>
        match readChecked g.board row col with
        | .error e => .error e
        | .ok letter =>
          match word[index]? with
          | none => .error Fault.outOfRange
          | some expected =>
            if letter ≠ expected then .ok (false, visited)
            else
              match writeChecked visited row col true with
              | .error e => .error e
              | .ok visited1 =>
                match
                  loopUntilFoundExcept
                    (fun i v =>
                      loopUntilFoundExcept
                        (fun j v =>
                          if i ≠ 0 ∨ j ≠ 0 then
                            findWordFromCellChecked g fuel word (index + 1) (row + i) (col + j) v
                          else .ok (false, v))
                        deltas false v)
                    deltas false visited1 with
                | .error e => .error e
                | .ok (found, visited') =>
                  match writeChecked visited' row col false with
                  | .error e => .error e
                  | .ok visited2 => .ok (found, visited2)

/-- The method `BoggleGame::findWordOnBoard` over the checked search. -/
def findWordOnBoardChecked (g : BoggleGame) (fuel : Nat) (word : List Char) :
    Except Fault Bool :=
  if word = [] ∨ word.length > g.boardSize * g.boardSize then .ok false
  else
    match
      loopUntilFoundExcept
        (fun i v =>
          loopUntilFoundExcept (fun j v => findWordFromCellChecked g fuel word 0 i j v)
            (indices g) false v)
        (indices g) false (freshVisited g) with
    | .error e => .error e
    | .ok (found, _) => .ok found

/-- The method `BoggleGame::findAllWordsHelper` with checked accesses. -/
def findAllWordsHelperChecked (g : BoggleGame) :
    Nat → Int → Int → SearchState → Except Fault SearchState
  | 0, _, _, _ => .error Fault.outOfFuel
  | fuel + 1, row, col, s =>
    if row < 0 ∨ row ≥ g.boardSize ∨ col < 0 ∨ col ≥ g.boardSize then .ok s
    else
      match readChecked s.visited row col with
      | .error e => .error e
      | .ok true => .ok s
      | .ok false =>
        match readChecked g.board row col with
        | .error e => .error e
        | .ok letter =>
          match writeChecked s.visited row col true with
          | .error e => .error e
          | .ok visited =>
            match
              (if g.dictionary.containsPrefix (s.currentWord ++ [letter]) = true then
                forEachExcept
                  (fun i s =>
                    forEachExcept
                      (fun j s =>
                        if i ≠ 0 ∨ j ≠ 0 then
                          findAllWordsHelperChecked g fuel (row + i) (col + j) s
                        else .ok s)
                      deltas s)
                  deltas
                  ⟨s.currentWord ++ [letter], visited,
                    if (s.currentWord ++ [letter]).length ≥ MIN_WORD_LENGTH ∧
                        g.dictionary.contains (s.currentWord ++ [letter]) = true then
                      insert (s.currentWord ++ [letter]) s.allWords
                    else s.allWords⟩
              else
                .ok ⟨s.currentWord ++ [letter], visited,
                  if (s.currentWord ++ [letter]).length ≥ MIN_WORD_LENGTH ∧
                      g.dictionary.contains (s.currentWord ++ [letter]) = true then
                    insert (s.currentWord ++ [letter]) s.allWords
                  else s.allWords⟩) with
            | .error e => .error e
            | .ok s' =>
              match writeChecked s'.visited row col false with
              | .error e => .error e
              | .ok visited' => .ok ⟨s'.currentWord.dropLast, visited', s'.allWords⟩

/-- The method `BoggleGame::findAllWords` over the checked helper. -/
def findAllWordsChecked (g : BoggleGame) (fuel : Nat) (allWords : Finset (List Char)) :
    Except Fault (Finset (List Char)) :=
  match
    forEachExcept
      (fun i s => forEachExcept (fun j s => findAllWordsHelperChecked g fuel i j s)
        (indices g) s)
      (indices g) ⟨[], freshVisited g, allWords⟩ with
  | .error e => .error e
  | .ok s => .ok s.allWords

/-! ## Recorded runs

The enumeration once more, keeping a record of the arguments with which every
call of `findAllWordsHelper` is entered. -/

/-- The arguments of one call of `findAllWordsHelper`, the result set apart. -/
structure CallEntry where
  row : Int
  col : Int
  currentWord : List Char
  visited : Visited
  deriving DecidableEq

/-- The method `BoggleGame::findAllWordsHelper`, which records its arguments
when it is entered. -/
def findAllWordsHelperLog (g : BoggleGame) :
    Nat → Int → Int → SearchState × List CallEntry → Option (SearchState × List CallEntry)
  | 0, _, _, _ => none
  | fuel + 1, row, col, (s, log) =>
    if row < 0 ∨ row ≥ g.boardSize ∨ col < 0 ∨ col ≥ g.boardSize ∨
        visitedAt s.visited row col = true then
      some (s, log ++ [⟨row, col, s.currentWord, s.visited⟩])
    else
      match
        (if g.dictionary.containsPrefix (s.currentWord ++ [boardAt g row col]) = true then
          forEach
            (fun i st =>
              forEach
                (fun j st =>
                  if i ≠ 0 ∨ j ≠ 0 then findAllWordsHelperLog g fuel (row + i) (col + j) st
                  else some st)
                deltas st)
            deltas
            (⟨s.currentWord ++ [boardAt g row col], setVisited s.visited row col true,
              if (s.currentWord ++ [boardAt g row col]).length ≥ MIN_WORD_LENGTH ∧
                  g.dictionary.contains (s.currentWord ++ [boardAt g row col]) = true then
                insert (s.currentWord ++ [boardAt g row col]) s.allWords
              else s.allWords⟩, log ++ [⟨row, col, s.currentWord, s.visited⟩])
        else
          some (⟨s.currentWord ++ [boardAt g row col], setVisited s.visited row col true,
            if (s.currentWord ++ [boardAt g row col]).length ≥ MIN_WORD_LENGTH ∧
                g.dictionary.contains (s.currentWord ++ [boardAt g row col]) = true then
              insert (s.currentWord ++ [boardAt g row col]) s.allWords
            else s.allWords⟩, log ++ [⟨row, col, s.currentWord, s.visited⟩])) with
      | none => none
      | some (s', log') =>
        some (⟨s'.currentWord.dropLast, setVisited s'.visited row col false, s'.allWords⟩, log')

/-- One top-level call `findAllWordsHelper(i, j, ...)` of `findAllWords`: the
entries it records are kept together with the start cell `(i, j)`. -/
def findAllWordsStart (g : BoggleGame) (fuel : Nat) (i j : Int)
    (st : SearchState × List ((Int × Int) × CallEntry)) :
    Option (SearchState × List ((Int × Int) × CallEntry)) :=
  match findAllWordsHelperLog g fuel i j (st.1, []) with
  | none => none
  | some r => some (r.1, st.2 ++ r.2.map (fun e => ((i, j), e)))

/-- The method `BoggleGame::findAllWords` over the recording helper. -/
def findAllWordsLog (g : BoggleGame) (fuel : Nat) (allWords : Finset (List Char)) :
    Option (SearchState × List ((Int × Int) × CallEntry)) :=
  forEach
    (fun i st => forEach (fun j st => findAllWordsStart g fuel i j st) (indices g) st)
    (indices g) (⟨[], freshVisited g, allWords⟩, [])

/-! ## Vocabulary of the specification -/

/-- The marker has `n` rows of `n` entries. -/
def Square (n : Nat) (v : Visited) : Prop :=
  v.length = n ∧ ∀ r ∈ v, r.length = n

/-- A grid position `(row, col)`. -/
abbrev Cell := Int × Int

/-- The position lies on the grid. -/
def InGrid (g : BoggleGame) (p : Cell) : Prop :=
  0 ≤ p.1 ∧ p.1 < g.boardSize ∧ 0 ≤ p.2 ∧ p.2 < g.boardSize

/-- Two positions differ by at most 1 in row and at most 1 in column. -/
def Adjacent (p q : Cell) : Prop :=
  |p.1 - q.1| ≤ 1 ∧ |p.2 - q.2| ≤ 1

/-- The letters of the cells of a path, in path order. -/
def letters (g : BoggleGame) (path : List Cell) : List Char :=
  path.map (fun p => boardAt g p.1 p.2)

/-- A simple path of adjacent grid cells, none of which is marked in `v`. -/
def Walk (g : BoggleGame) (v : Visited) (path : List Cell) : Prop :=
  path.Nodup ∧ (∀ p ∈ path, InGrid g p ∧ visitedAt v p.1 p.2 = false) ∧ path.Chain' Adjacent

/-- The path traces the word: its cells are pairwise distinct grid cells,
consecutive ones are adjacent, there are as many as the word has letters and
their letters, read in order, are the word. -/
def Traces (g : BoggleGame) (path : List Cell) (word : List Char) : Prop :=
  path.length = word.length ∧ path.Nodup ∧ (∀ p ∈ path, InGrid g p) ∧
    path.Chain' Adjacent ∧ letters g path = word

/-- The grid cells that are not marked in `v`. -/
def unmarked (g : BoggleGame) (v : Visited) : Finset Cell :=
  (Finset.Ico (0 : Int) g.boardSize ×ˢ Finset.Ico (0 : Int) g.boardSize).filter
    (fun p => visitedAt v p.1 p.2 = false)

/-- The search started at the cell `start` with the candidate `cur` and the
marker `v` reaches the word `w` and records it: `w` is `cur` followed by the
letters of a simple path from `start` that avoids the marked cells, it is long
enough and in the dictionary, and every candidate met before the end of the
path passes the prefix test. -/
def Finds (g : BoggleGame) (v : Visited) (cur : List Char) (start : Cell) (w : List Char) :
    Prop :=
  ∃ path, path.head? = some start ∧ Walk g v path ∧ w = cur ++ letters g path ∧
    w.length ≥ MIN_WORD_LENGTH ∧ g.dictionary.contains w = true ∧
    ∀ k, 0 < k → k < path.length →
      g.dictionary.containsPrefix (cur ++ letters g (path.take k)) = true

/-- The board has `boardSize` rows of `boardSize` cells, as `readBoard` leaves it. -/
def BoardSquare (g : BoggleGame) : Prop :=
  g.board.length = g.boardSize ∧ ∀ r ∈ g.board, r.length = g.boardSize

/-- Every cell of the board is an upper-case letter `A` to `Z`. -/
def UpperCase (g : BoggleGame) : Prop :=
  ∀ r ∈ g.board, ∀ c ∈ r, c.isUpper = true

/-- The bare board has `n` rows of `n` cells. -/
def Shape (n : Nat) (board : List (List Char)) : Prop :=
  board.length = n ∧ ∀ r ∈ board, r.length = n

/-- The first `k` characters of the input are there and are letters. -/
def CellsGood (cells : List Char) (k : Nat) : Prop :=
  k ≤ cells.length ∧ ∀ c ∈ cells.take k, c.isAlpha = true

/-- The grid cells that are marked in `v`. -/
def marked (g : BoggleGame) (v : Visited) : Finset Cell :=
  (Finset.Ico (0 : Int) g.boardSize ×ˢ Finset.Ico (0 : Int) g.boardSize).filter
    (fun p => visitedAt v p.1 p.2 = true)

/-- The candidate `cur` and the marker `v` are those of the partial path
`path`: the path is a simple path of adjacent grid cells, the marked grid
cells are exactly its cells, and the candidate is its letters in order. -/
def PathState (g : BoggleGame) (path : List Cell) (cur : List Char) (v : Visited) : Prop :=
  path.Nodup ∧ (∀ p ∈ path, InGrid g p) ∧ path.Chain' Adjacent ∧
    (∀ p, InGrid g p → (visitedAt v p.1 p.2 = true ↔ p ∈ path)) ∧ cur = letters g path

/-! ## Scenario data -/

/-- Modelled from the spec: the class `Lexicon` of `lexicon.h` is not part of
the sources. This is the dictionary built from a word list as the spec
describes its queries: `contains` holds of the inserted words and
`containsPrefix` of the strings that some inserted word starts with. -/
def wordsLexicon (ws : List (List Char)) : Lexicon where
  contains w := decide (w ∈ ws)
  containsPrefix p := ws.any (fun w => p.isPrefixOf w)

/-- The grid `[[C,A],[T,S]]` of the scenario. -/
def catBoard : List (List Char) := [['C', 'A'], ['T', 'S']]

/-- The game on the grid `[[C,A],[T,S]]` with the dictionary `d`. -/
def catGame (d : Lexicon) : BoggleGame where
  board := catBoard
  boardSize := 2
  dictionary := d

/-- The words `CAT`, `CATS`, `ACT` of the scenario. -/
def catWords : List (List Char) := [['C', 'A', 'T'], ['C', 'A', 'T', 'S'], ['A', 'C', 'T']]

/-- The game on the grid `[[A]]` with the dictionary `d`. -/
def singleGame (d : Lexicon) : BoggleGame where
  board := [['A']]
  boardSize := 1
  dictionary := d

/-- The game on the grid `[[C,A,T],[X,X,S],[X,X,X]]` with the dictionary `d`. -/
def wideGame (d : Lexicon) : BoggleGame where
  board := [['C', 'A', 'T'], ['X', 'X', 'S'], ['X', 'X', 'X']]
  boardSize := 3
  dictionary := d

/-- The words `CATS` and `CATSX`, the first a prefix of the second. -/
def wideWords : List (List Char) := [['C', 'A', 'T', 'S'], ['C', 'A', 'T', 'S', 'X']]

/-- A dictionary whose prefix test never prunes: `containsPrefix` is true of
every string and `contains` of those of exactly four letters. -/
def greedyLexicon : Lexicon where
  contains w := decide (w.length = 4)
  containsPrefix _ := true

/-! ## The visited marker -/

theorem square_freshVisited (g : BoggleGame) : Square g.boardSize (freshVisited g) := by
  refine ⟨by simp [freshVisited], ?_⟩
  intro r hr
  rw [freshVisited, List.mem_replicate] at hr
  rw [hr.2, List.length_replicate]

theorem visitedAt_freshVisited (g : BoggleGame) (row col : Int) :
    visitedAt (freshVisited g) row col = false := by
  simp only [visitedAt, freshVisited, List.getD_eq_getElem?_getD, List.getElem?_replicate]
  split_ifs with h1
  · rw [Option.getD_some, List.getElem?_replicate]
    split_ifs <;> rfl
  · rfl

theorem square_setVisited {n : Nat} {v : Visited} (h : Square n v) (row col : Int) (b : Bool) :
    Square n (setVisited v row col b) := by
  refine ⟨by simp [setVisited, h.1], ?_⟩
  intro r hr
  rw [setVisited] at hr
  by_cases hi : row.toNat < v.length
  · rcases List.mem_or_eq_of_mem_set hr with h1 | h1
    · exact h.2 r h1
    · rw [h1, List.length_set, List.getD_eq_getElem?_getD, List.getElem?_eq_getElem hi,
        Option.getD_some]
      exact h.2 _ (List.getElem_mem hi)
  · rw [List.set_eq_of_length_le (not_lt.mp hi)] at hr
    exact h.2 r hr

theorem visitedAt_setVisited_self {n : Nat} {v : Visited} (h : Square n v) {row col : Int}
    (hr : row.toNat < n) (hc : col.toNat < n) (b : Bool) :
    visitedAt (setVisited v row col b) row col = b := by
  have hi : row.toNat < v.length := by rw [h.1]; exact hr
  have hj : col.toNat < (v[row.toNat]).length := by
    rw [h.2 _ (List.getElem_mem hi)]; exact hc
  simp [visitedAt, setVisited, hi, hj]

theorem visitedAt_setVisited_other (v : Visited) {row col row' col' : Int}
    (hne : row'.toNat ≠ row.toNat ∨ col'.toNat ≠ col.toNat) (b : Bool) :
    visitedAt (setVisited v row col b) row' col' = visitedAt v row' col' := by
  simp only [visitedAt, setVisited, List.getD_eq_getElem?_getD]
  by_cases hrow : row'.toNat = row.toNat
  · have hcol : col.toNat ≠ col'.toNat := by
      rcases hne with h1 | h1
      · exact absurd hrow h1
      · exact fun h2 => h1 h2.symm
    rw [hrow]
    by_cases hi : row.toNat < v.length
    · simp [hi, List.getElem?_set_ne hcol]
    · simp [List.set_eq_of_length_le (not_lt.mp hi)]
  · rw [List.getElem?_set_ne (fun h1 => hrow h1.symm)]

theorem setVisited_restore (v : Visited) (row col : Int) (h : visitedAt v row col = false) :
    setVisited (setVisited v row col true) row col false = v := by
  simp only [visitedAt, List.getD_eq_getElem?_getD] at h
  simp only [setVisited, List.getD_eq_getElem?_getD]
  by_cases hi : row.toNat < v.length
  · simp only [List.getElem?_set_self hi, Option.getD_some, List.set_set,
      List.getElem?_eq_getElem hi]
    rw [List.getElem?_eq_getElem hi, Option.getD_some] at h
    have hrow : (v[row.toNat]).set col.toNat false = v[row.toNat] := by
      by_cases hj : col.toNat < (v[row.toNat]).length
      · rw [List.getElem?_eq_getElem hj, Option.getD_some] at h
        apply List.ext_getElem (by simp)
        intro k h1 h2
        by_cases hk : col.toNat = k
        · subst hk; simp [h]
        · simp [List.getElem_set_ne hk]
      · exact List.set_eq_of_length_le (not_lt.mp hj)
    rw [hrow]
    apply List.ext_getElem (by simp)
    intro k h1 h2
    by_cases hk : row.toNat = k
    · subst hk; simp
    · simp [List.getElem_set_ne hk]
  · simp [List.set_eq_of_length_le (not_lt.mp hi)]

/-! ## Paths on the grid -/

theorem adjacent_iff_delta (p q : Cell) :
    Adjacent p q ↔ ∃ i ∈ deltas, ∃ j ∈ deltas, q = (p.1 + i, p.2 + j) := by
  obtain ⟨p1, p2⟩ := p
  obtain ⟨q1, q2⟩ := q
  simp only [Adjacent, abs_le, deltas, List.mem_cons, List.mem_singleton, Prod.mk.injEq,
    List.not_mem_nil, or_false]
  constructor
  · rintro ⟨⟨h1, h2⟩, h3, h4⟩
    refine ⟨q1 - p1, by omega, q2 - p2, by omega, by omega, by omega⟩
  · rintro ⟨i, hi, j, hj, h1, h2⟩
    omega

theorem toNat_ne_of_ne {g : BoggleGame} {p q : Cell} (hp : InGrid g p) (hq : InGrid g q)
    (hne : q ≠ p) : q.1.toNat ≠ p.1.toNat ∨ q.2.toNat ≠ p.2.toNat := by
  obtain ⟨p1, p2⟩ := p
  obtain ⟨q1, q2⟩ := q
  simp only [InGrid] at hp hq
  by_contra hcon
  push_neg at hcon
  apply hne
  simp only [Prod.mk.injEq]
  omega

theorem walk_nil (g : BoggleGame) (v : Visited) : Walk g v [] :=
  ⟨List.nodup_nil, fun _ h => absurd h (List.not_mem_nil _), List.chain'_nil⟩

theorem walk_cons (g : BoggleGame) {v : Visited} (hv : Square g.boardSize v) (p : Cell)
    (path : List Cell) :
    Walk g v (p :: path) ↔
      InGrid g p ∧ visitedAt v p.1 p.2 = false ∧ (∀ q ∈ path.head?, Adjacent p q) ∧
        Walk g (setVisited v p.1 p.2 true) path := by
  constructor
  · rintro ⟨hnd, hall, hch⟩
    rw [List.nodup_cons] at hnd
    rw [List.chain'_cons'] at hch
    have hp := hall p (List.mem_cons_self p path)
    refine ⟨hp.1, hp.2, hch.1, hnd.2, ?_, hch.2⟩
    intro q hq
    have hq' := hall q (List.mem_cons_of_mem p hq)
    refine ⟨hq'.1, ?_⟩
    have hne : q ≠ p := fun h => hnd.1 (h ▸ hq)
    rw [visitedAt_setVisited_other v (toNat_ne_of_ne hp.1 hq'.1 hne)]
    exact hq'.2
  · rintro ⟨hp, hvp, hadj, hnd, hall, hch⟩
    have hmark : visitedAt (setVisited v p.1 p.2 true) p.1 p.2 = true := by
      have h1 := hp
      simp only [InGrid] at h1
      exact visitedAt_setVisited_self hv (by omega) (by omega) true
    have hnot : p ∉ path := by
      intro hmem
      have h1 := (hall p hmem).2
      rw [hmark] at h1
      exact Bool.noConfusion h1
    refine ⟨List.nodup_cons.mpr ⟨hnot, hnd⟩, ?_, List.chain'_cons'.mpr ⟨hadj, hch⟩⟩
    intro q hq
    rcases List.mem_cons.mp hq with h1 | h1
    · subst h1; exact ⟨hp, hvp⟩
    · have hq' := hall q h1
      have hne : q ≠ p := fun h => hnot (h ▸ h1)
      rw [visitedAt_setVisited_other v (toNat_ne_of_ne hp hq'.1 hne)] at hq'
      exact hq'

/-- One step of the search: a path for `c :: rest` from an unmarked grid cell
holding `c` is that cell followed by a path for `rest` from one of its eight
neighbours that avoids the cell. -/
theorem trace_step (g : BoggleGame) {v : Visited} (hv : Square g.boardSize v) {row col : Int}
    (hin : InGrid g (row, col)) (hvis : visitedAt v row col = false) (rest : List Char) :
    (∃ i ∈ deltas, ∃ j ∈ deltas, (i ≠ 0 ∨ j ≠ 0) ∧
        (rest = [] ∨ ∃ path, path.head? = some (row + i, col + j) ∧
          Walk g (setVisited v row col true) path ∧ letters g path = rest)) ↔
      ∃ path, path.head? = some (row, col) ∧ Walk g v path ∧
        letters g path = boardAt g row col :: rest := by
  constructor
  · rintro ⟨i, hi, j, hj, -, h | ⟨path, hhead, hwalk, hlet⟩⟩
    · refine ⟨[(row, col)], rfl, ?_, by simp [letters, h]⟩
      rw [walk_cons g hv]
      exact ⟨hin, hvis, by simp, walk_nil g _⟩
    · refine ⟨(row, col) :: path, rfl, ?_, by simp [letters] at hlet ⊢; exact hlet⟩
      rw [walk_cons g hv]
      refine ⟨hin, hvis, ?_, hwalk⟩
      intro q hq
      rw [hhead] at hq
      cases hq
      exact (adjacent_iff_delta _ _).mpr ⟨i, hi, j, hj, rfl⟩
  · rintro ⟨path, hhead, hwalk, hlet⟩
    cases path with
    | nil => simp at hhead
    | cons p path =>
      simp only [List.head?_cons, Option.some.injEq] at hhead
      subst hhead
      rw [walk_cons g hv] at hwalk
      obtain ⟨-, -, hadj, hwalk⟩ := hwalk
      have hlet' : letters g path = rest := by
        simp only [letters, List.map_cons, List.cons.injEq, true_and] at hlet
        exact hlet
      cases path with
      | nil =>
        refine ⟨-1, by simp [deltas], -1, by simp [deltas], by simp, Or.inl ?_⟩
        simpa [letters] using hlet'.symm
      | cons q path =>
        obtain ⟨i, hi, j, hj, hq⟩ := (adjacent_iff_delta _ _).mp (hadj q rfl)
        refine ⟨i, hi, j, hj, ?_, Or.inr ⟨q :: path, by simp [hq], hwalk, hlet'⟩⟩
        by_contra hcon
        push_neg at hcon
        have h1 := (hwalk.2.1 q (List.mem_cons_self q path)).2
        rw [hq, hcon.1, hcon.2, add_zero, add_zero] at h1
        have h2 := hin
        simp only [InGrid] at h2
        rw [visitedAt_setVisited_self hv (by omega) (by omega) true] at h1
        exact Bool.noConfusion h1

/-! ## The loops -/

theorem loopUntilFound_frame {α σ : Type} (body : α → σ → Option (Bool × σ)) (s : σ)
    (P : α → Prop) :
    ∀ (xs : List α) (found : Bool),
      (∀ x ∈ xs, ∃ b, body x s = some (b, s) ∧ (b = true ↔ P x)) →
      ∃ b, loopUntilFound body xs found s = some (b, s) ∧
        (b = true ↔ found = true ∨ ∃ x ∈ xs, P x)
  | [], found, _ => ⟨found, rfl, by simp⟩
  | x :: xs, found, h => by
    cases found with
    | true => exact ⟨true, by simp [loopUntilFound], by simp⟩
    | false =>
      obtain ⟨b, hb, hP⟩ := h x (List.mem_cons_self x xs)
      obtain ⟨b', hb', hP'⟩ :=
        loopUntilFound_frame body s P xs b (fun y hy => h y (List.mem_cons_of_mem x hy))
      refine ⟨b', by simp [loopUntilFound, hb, hb'], ?_⟩
      rw [hP', hP]
      simp

/-! ## What `findWordFromCell` computes -/

theorem findWordFromCell_spec (g : BoggleGame) :
    ∀ (fuel : Nat) (word : List Char) (index : Nat) (row col : Int) (v : Visited),
      Square g.boardSize v → word.length - index < fuel →
      ∃ b, findWordFromCell g fuel word index row col v = some (b, v) ∧
        (b = true ↔ index = word.length ∨
          ∃ path, path.head? = some (row, col) ∧ Walk g v path ∧
            letters g path = word.drop index)
  | 0, _, _, _, _, _, _, h => absurd h (Nat.not_lt_zero _)
  | fuel + 1, word, index, row, col, v, hv, hfuel => by
    rw [findWordFromCell]
    by_cases h1 : index = word.length
    · exact ⟨true, by simp [h1], by simp [h1]⟩
    · rw [if_neg h1]
      by_cases h2 : row < 0 ∨ row ≥ g.boardSize ∨ col < 0 ∨ col ≥ g.boardSize ∨
          visitedAt v row col = true ∨ word[index]? ≠ some (boardAt g row col)
      · rw [if_pos h2]
        refine ⟨false, rfl, ?_⟩
        simp only [h1, false_or, Bool.false_eq_true, false_iff]
        rintro ⟨path, hhead, hwalk, hlet⟩
        cases path with
        | nil => simp at hhead
        | cons p path =>
          simp only [List.head?_cons, Option.some.injEq] at hhead
          subst hhead
          have hp := hwalk.2.1 _ (List.mem_cons_self _ _)
          have hchar : word[index]? = some (boardAt g row col) := by
            have h3 := congrArg List.head? hlet
            simp only [letters, List.map_cons, List.head?_cons, List.head?_drop] at h3
            exact h3.symm
          simp only [InGrid] at hp
          rcases h2 with h | h | h | h | h | h
          · omega
          · omega
          · omega
          · omega
          · rw [hp.2] at h; exact Bool.noConfusion h
          · exact h hchar
      · rw [if_neg h2]
        push_neg at h2
        obtain ⟨hr0, hr1, hc0, hc1, hvis, hchar⟩ := h2
        have hvis' : visitedAt v row col = false := by simpa using hvis
        have hin : InGrid g (row, col) := ⟨hr0, hr1, hc0, hc1⟩
        have hlt : index < word.length := by
          by_contra hcon
          rw [List.getElem?_eq_none (not_lt.mp hcon)] at hchar
          exact Option.noConfusion hchar
        have hdrop : word.drop index = boardAt g row col :: word.drop (index + 1) := by
          rw [List.drop_eq_getElem_cons hlt]
          rw [List.getElem?_eq_getElem hlt, Option.some.injEq] at hchar
          rw [hchar]
        have hv1 := square_setVisited hv row col true
        have hinner : ∀ i ∈ deltas, ∃ b,
            loopUntilFound
              (fun j v =>
                if i ≠ 0 ∨ j ≠ 0 then
                  findWordFromCell g fuel word (index + 1) (row + i) (col + j) v
                else some (false, v))
              deltas false (setVisited v row col true) = some (b, setVisited v row col true) ∧
            (b = true ↔ ∃ j ∈ deltas, (i ≠ 0 ∨ j ≠ 0) ∧
              (word.drop (index + 1) = [] ∨ ∃ path, path.head? = some (row + i, col + j) ∧
                Walk g (setVisited v row col true) path ∧
                letters g path = word.drop (index + 1))) := by
          intro i _
          have h3 := loopUntilFound_frame
            (fun j v =>
              if i ≠ 0 ∨ j ≠ 0 then
                findWordFromCell g fuel word (index + 1) (row + i) (col + j) v
              else some (false, v))
            (setVisited v row col true)
            (fun j => (i ≠ 0 ∨ j ≠ 0) ∧
              (word.drop (index + 1) = [] ∨ ∃ path, path.head? = some (row + i, col + j) ∧
                Walk g (setVisited v row col true) path ∧
                letters g path = word.drop (index + 1)))
            deltas false ?_
          · simpa using h3
          · intro j _
            by_cases hij : i ≠ 0 ∨ j ≠ 0
            · obtain ⟨b, hb, hiff⟩ := findWordFromCell_spec g fuel word (index + 1) (row + i)
                (col + j) (setVisited v row col true) hv1 (by omega)
              refine ⟨b, by simp only [if_pos hij]; exact hb, ?_⟩
              rw [hiff]
              have h4 : index + 1 = word.length ↔ word.drop (index + 1) = [] := by
                rw [List.drop_eq_nil_iff]; omega
              rw [h4]
              simp [hij]
            · exact ⟨false, by simp only [if_neg hij], by simp [hij]⟩
        obtain ⟨b, hb, hiff⟩ := loopUntilFound_frame _ (setVisited v row col true) _ deltas false
          hinner
        refine ⟨b, ?_, ?_⟩
        · simp only [hb, setVisited_restore v row col hvis']
        · rw [hiff, hdrop, ← trace_step g hv hin hvis']
          simp [h1]

/-! ## What `findWordOnBoard` computes -/

theorem walk_freshVisited (g : BoggleGame) (path : List Cell) :
    Walk g (freshVisited g) path ↔
      path.Nodup ∧ (∀ p ∈ path, InGrid g p) ∧ path.Chain' Adjacent := by
  simp only [Walk, visitedAt_freshVisited, and_true]

theorem traces_iff_walk (g : BoggleGame) (path : List Cell) (word : List Char) :
    Traces g path word ↔ Walk g (freshVisited g) path ∧ letters g path = word := by
  rw [walk_freshVisited, Traces]
  constructor
  · rintro ⟨-, h1, h2, h3, h4⟩
    exact ⟨⟨h1, h2, h3⟩, h4⟩
  · rintro ⟨⟨h1, h2, h3⟩, h4⟩
    refine ⟨?_, h1, h2, h3, h4⟩
    rw [← h4, letters, List.length_map]

theorem mem_indices (g : BoggleGame) (i : Int) : i ∈ indices g ↔ 0 ≤ i ∧ i < g.boardSize := by
  simp only [indices, List.mem_map, List.mem_range]
  constructor
  · rintro ⟨n, hn, rfl⟩
    simp only [Int.ofNat_eq_coe]
    omega
  · rintro ⟨h0, h1⟩
    refine ⟨i.toNat, by omega, ?_⟩
    simp only [Int.ofNat_eq_coe]
    omega

/-- A list of pairwise distinct grid cells has at most `boardSize * boardSize` members. -/
theorem length_le_of_nodup_inGrid (g : BoggleGame) (path : List Cell) (hnd : path.Nodup)
    (hin : ∀ p ∈ path, InGrid g p) : path.length ≤ g.boardSize * g.boardSize := by
  have hsub : path.toFinset ⊆
      Finset.Ico (0 : Int) g.boardSize ×ˢ Finset.Ico (0 : Int) g.boardSize := by
    intro p hp
    have h1 := hin p (List.mem_toFinset.mp hp)
    simp only [InGrid] at h1
    simp only [Finset.mem_product, Finset.mem_Ico]
    omega
  have hcard := Finset.card_le_card hsub
  rw [List.toFinset_card_of_nodup hnd, Finset.card_product, Int.card_Ico] at hcard
  simpa using hcard

theorem findWordOnBoardLoop_spec (g : BoggleGame) (fuel : Nat) (word : List Char)
    (hne : word ≠ []) (hfuel : word.length < fuel) :
    ∃ b, findWordOnBoardLoop g fuel word = some (b, freshVisited g) ∧
      (b = true ↔ ∃ path, Traces g path word) := by
  have hlen : 0 ≠ word.length := fun h => hne (List.length_eq_zero.mp h.symm)
  have hinner : ∀ i ∈ indices g, ∃ b,
      loopUntilFound (fun j v => findWordFromCell g fuel word 0 i j v) (indices g) false
        (freshVisited g) = some (b, freshVisited g) ∧
      (b = true ↔ ∃ j ∈ indices g, ∃ path, path.head? = some (i, j) ∧
        Walk g (freshVisited g) path ∧ letters g path = word) := by
    intro i _
    have h3 := loopUntilFound_frame (fun j v => findWordFromCell g fuel word 0 i j v)
      (freshVisited g)
      (fun j => ∃ path, path.head? = some (i, j) ∧ Walk g (freshVisited g) path ∧
        letters g path = word)
      (indices g) false ?_
    · simpa using h3
    · intro j _
      obtain ⟨b, hb, hiff⟩ := findWordFromCell_spec g fuel word 0 i j (freshVisited g)
        (square_freshVisited g) (by omega)
      refine ⟨b, hb, ?_⟩
      rw [hiff]
      simp [hlen]
  obtain ⟨b, hb, hiff⟩ := loopUntilFound_frame _ (freshVisited g) _ (indices g) false hinner
  refine ⟨b, hb, ?_⟩
  rw [hiff]
  simp only [Bool.false_eq_true, false_or, traces_iff_walk]
  constructor
  · rintro ⟨i, -, j, -, path, -, h⟩
    exact ⟨path, h⟩
  · rintro ⟨path, hwalk, hlet⟩
    cases path with
    | nil => exact absurd hlet.symm hne
    | cons p path =>
      have hp := (hwalk.2.1 p (List.mem_cons_self p path)).1
      simp only [InGrid] at hp
      exact ⟨p.1, (mem_indices g _).mpr ⟨hp.1, hp.2.1⟩, p.2,
        (mem_indices g _).mpr ⟨hp.2.2.1, hp.2.2.2⟩, p :: path, rfl, hwalk, hlet⟩

/-- The result of `findWordOnBoard`, for a budget above the length of the word
or above the number of cells. -/
theorem findWordOnBoard_spec (g : BoggleGame) (fuel : Nat) (word : List Char)
    (hfuel : word.length < fuel ∨ g.boardSize * g.boardSize < fuel) :
    ∃ b, findWordOnBoard g fuel word = some b ∧
      (b = true ↔ word ≠ [] ∧ ∃ path, Traces g path word) := by
  rw [findWordOnBoard]
  by_cases h1 : word = [] ∨ word.length > g.boardSize * g.boardSize
  · rw [if_pos h1]
    refine ⟨false, rfl, ?_⟩
    simp only [Bool.false_eq_true, false_iff, not_and, not_exists]
    intro hne path hpath
    rcases h1 with h | h
    · exact hne h
    · have h2 := length_le_of_nodup_inGrid g path hpath.2.1 hpath.2.2.1
      rw [hpath.1] at h2
      omega
  · rw [if_neg h1]
    push_neg at h1
    obtain ⟨b, hb, hiff⟩ := findWordOnBoardLoop_spec g fuel word h1.1 (by omega)
    refine ⟨b, by rw [hb]; rfl, ?_⟩
    rw [hiff]
    simp [h1.1]

/-! ## What `findAllWordsHelper` computes -/

theorem mem_unmarked (g : BoggleGame) (v : Visited) (p : Cell) :
    p ∈ unmarked g v ↔ InGrid g p ∧ visitedAt v p.1 p.2 = false := by
  simp only [unmarked, Finset.mem_filter, Finset.mem_product, Finset.mem_Ico, InGrid]
  constructor
  · rintro ⟨⟨⟨h1, h2⟩, h3, h4⟩, h5⟩
    exact ⟨⟨h1, h2, h3, h4⟩, h5⟩
  · rintro ⟨⟨h1, h2, h3, h4⟩, h5⟩
    exact ⟨⟨⟨h1, h2⟩, h3, h4⟩, h5⟩

theorem card_unmarked_freshVisited (g : BoggleGame) :
    (unmarked g (freshVisited g)).card = g.boardSize * g.boardSize := by
  have h : unmarked g (freshVisited g) =
      Finset.Ico (0 : Int) g.boardSize ×ˢ Finset.Ico (0 : Int) g.boardSize := by
    rw [unmarked, Finset.filter_true_of_mem]
    intro p _
    exact visitedAt_freshVisited g _ _
  rw [h, Finset.card_product, Int.card_Ico]
  simp

theorem card_unmarked_le (g : BoggleGame) (v : Visited) :
    (unmarked g v).card ≤ g.boardSize * g.boardSize := by
  have h := Finset.card_filter_le
    (Finset.Ico (0 : Int) g.boardSize ×ˢ Finset.Ico (0 : Int) g.boardSize)
    (fun p => visitedAt v p.1 p.2 = false)
  rw [Finset.card_product, Int.card_Ico] at h
  simpa [unmarked] using h

/-- Marking an unmarked grid cell leaves fewer unmarked cells. -/
theorem card_unmarked_setVisited (g : BoggleGame) {v : Visited} (hv : Square g.boardSize v)
    {p : Cell} (hin : InGrid g p) (hvis : visitedAt v p.1 p.2 = false) :
    (unmarked g (setVisited v p.1 p.2 true)).card < (unmarked g v).card := by
  have hmark : visitedAt (setVisited v p.1 p.2 true) p.1 p.2 = true := by
    have h1 := hin
    simp only [InGrid] at h1
    exact visitedAt_setVisited_self hv (by omega) (by omega) true
  apply Finset.card_lt_card
  rw [Finset.ssubset_iff_of_subset]
  · refine ⟨p, (mem_unmarked g v p).mpr ⟨hin, hvis⟩, ?_⟩
    rw [mem_unmarked, hmark]
    simp
  · intro q hq
    rw [mem_unmarked] at hq ⊢
    refine ⟨hq.1, ?_⟩
    have hne : q ≠ p := by
      intro h
      rw [h, hmark] at hq
      exact Bool.noConfusion hq.2
    rw [visitedAt_setVisited_other v (toNat_ne_of_ne hin hq.1 hne)] at hq
    exact hq.2

/-- One step of the enumeration: from an unmarked grid cell the search
records the extended candidate itself, or, when that candidate passes the
prefix test, what the search from one of the eight neighbours records. -/
theorem finds_step (g : BoggleGame) {v : Visited} (hv : Square g.boardSize v) {row col : Int}
    (hin : InGrid g (row, col)) (hvis : visitedAt v row col = false) (cur w : List Char) :
    Finds g v cur (row, col) w ↔
      (w = cur ++ [boardAt g row col] ∧ (cur ++ [boardAt g row col]).length ≥ MIN_WORD_LENGTH ∧
        g.dictionary.contains (cur ++ [boardAt g row col]) = true) ∨
      (g.dictionary.containsPrefix (cur ++ [boardAt g row col]) = true ∧
        ∃ i ∈ deltas, ∃ j ∈ deltas, (i ≠ 0 ∨ j ≠ 0) ∧
          Finds g (setVisited v row col true) (cur ++ [boardAt g row col])
            (row + i, col + j) w) := by
  have hmark : visitedAt (setVisited v row col true) row col = true := by
    have h1 := hin
    simp only [InGrid] at h1
    exact visitedAt_setVisited_self hv (by omega) (by omega) true
  constructor
  · rintro ⟨path, hhead, hwalk, hw, hlen, hcont, hpre⟩
    cases path with
    | nil => simp at hhead
    | cons p path =>
      simp only [List.head?_cons, Option.some.injEq] at hhead
      subst hhead
      rw [walk_cons g hv] at hwalk
      obtain ⟨-, -, hadj, hwalk⟩ := hwalk
      cases path with
      | nil =>
        left
        have hw' : w = cur ++ [boardAt g row col] := by simpa [letters] using hw
        exact ⟨hw', hw' ▸ hlen, hw' ▸ hcont⟩
      | cons q path =>
        right
        obtain ⟨i, hi, j, hj, hq⟩ := (adjacent_iff_delta _ _).mp (hadj q rfl)
        have hne : i ≠ 0 ∨ j ≠ 0 := by
          by_contra hcon
          push_neg at hcon
          have h1 := (hwalk.2.1 q (List.mem_cons_self q path)).2
          rw [hq, hcon.1, hcon.2, add_zero, add_zero, hmark] at h1
          exact Bool.noConfusion h1
        refine ⟨?_, i, hi, j, hj, hne, q :: path, by simp [hq], hwalk, ?_, hlen, hcont, ?_⟩
        · have h1 := hpre 1 (by omega) (by simp)
          simpa [letters] using h1
        · simpa [letters] using hw
        · intro k hk0 hk
          have h1 := hpre (k + 1) (by omega) (by simp at hk ⊢; omega)
          simpa [letters] using h1
  · rintro (⟨hw, hlen, hcont⟩ | ⟨hpre1, i, hi, j, hj, -, path, hhead, hwalk, hw, hlen, hcont, hpre⟩)
    · refine ⟨[(row, col)], rfl, ?_, by simpa [letters] using hw, by rw [hw]; exact hlen,
        by rw [hw]; exact hcont, ?_⟩
      · rw [walk_cons g hv]
        exact ⟨hin, hvis, by simp, walk_nil g _⟩
      · intro k hk0 hk
        simp at hk
        omega
    · refine ⟨(row, col) :: path, rfl, ?_, by simpa [letters] using hw, hlen, hcont, ?_⟩
      · rw [walk_cons g hv]
        refine ⟨hin, hvis, ?_, hwalk⟩
        intro q hq
        rw [hhead] at hq
        cases hq
        exact (adjacent_iff_delta _ _).mpr ⟨i, hi, j, hj, rfl⟩
      · intro k hk0 hk
        obtain ⟨k, rfl⟩ : ∃ k', k = k' + 1 := ⟨k - 1, by omega⟩
        by_cases hk1 : k = 0
        · subst hk1
          simpa [letters] using hpre1
        · have h1 := hpre k (by omega) (by simp at hk; omega)
          simpa [letters] using h1

theorem forEach_collect {α : Type} (body : α → SearchState → Option SearchState)
    (cur : List Char) (v : Visited) (F : α → List Char → Prop) :
    ∀ (xs : List α) (all : Finset (List Char)),
      (∀ x ∈ xs, ∀ all, ∃ all', body x ⟨cur, v, all⟩ = some ⟨cur, v, all'⟩ ∧
        ∀ w, w ∈ all' ↔ w ∈ all ∨ F x w) →
      ∃ all', forEach body xs ⟨cur, v, all⟩ = some ⟨cur, v, all'⟩ ∧
        ∀ w, w ∈ all' ↔ w ∈ all ∨ ∃ x ∈ xs, F x w
  | [], all, _ => ⟨all, rfl, by simp⟩
  | x :: xs, all, h => by
    obtain ⟨all1, h1, hmem1⟩ := h x (List.mem_cons_self x xs) all
    obtain ⟨all2, h2, hmem2⟩ :=
      forEach_collect body cur v F xs all1 (fun y hy => h y (List.mem_cons_of_mem x hy))
    refine ⟨all2, by simp only [forEach, h1, h2], ?_⟩
    intro w
    rw [hmem2, hmem1]
    simp only [List.mem_cons, exists_eq_or_imp, or_assoc]

theorem findAllWordsHelper_spec (g : BoggleGame) :
    ∀ (fuel : Nat) (row col : Int) (s : SearchState),
      Square g.boardSize s.visited → (unmarked g s.visited).card < fuel →
      ∃ all', findAllWordsHelper g fuel row col s = some ⟨s.currentWord, s.visited, all'⟩ ∧
        ∀ w, w ∈ all' ↔ w ∈ s.allWords ∨ Finds g s.visited s.currentWord (row, col) w
  | 0, _, _, _, _, h => absurd h (Nat.not_lt_zero _)
  | fuel + 1, row, col, ⟨cur, v, all⟩, hv, hfuel => by
    rw [findAllWordsHelper]
    by_cases h1 : row < 0 ∨ row ≥ g.boardSize ∨ col < 0 ∨ col ≥ g.boardSize ∨
        visitedAt v row col = true
    · rw [if_pos h1]
      refine ⟨all, rfl, ?_⟩
      intro w
      simp only [iff_self_or]
      rintro ⟨path, hhead, hwalk, -⟩
      exfalso
      cases path with
      | nil => simp at hhead
      | cons p path =>
        simp only [List.head?_cons, Option.some.injEq] at hhead
        subst hhead
        have hp := hwalk.2.1 _ (List.mem_cons_self _ _)
        simp only [InGrid] at hp
        rcases h1 with h | h | h | h | h
        · omega
        · omega
        · omega
        · omega
        · rw [hp.2] at h; exact Bool.noConfusion h
    · rw [if_neg h1]
      push_neg at h1
      obtain ⟨hr0, hr1, hc0, hc1, hvis⟩ := h1
      have hvis' : visitedAt v row col = false := by simpa using hvis
      have hin : InGrid g (row, col) := ⟨hr0, hr1, hc0, hc1⟩
      have hv1 := square_setVisited hv row col true
      have hcard := card_unmarked_setVisited g hv hin hvis'
      have hloops : ∀ all0 : Finset (List Char), ∃ all',
          forEach
            (fun i s =>
              forEach
                (fun j s =>
                  if i ≠ 0 ∨ j ≠ 0 then findAllWordsHelper g fuel (row + i) (col + j) s
                  else some s)
                deltas s)
            deltas ⟨cur ++ [boardAt g row col], setVisited v row col true, all0⟩ =
              some ⟨cur ++ [boardAt g row col], setVisited v row col true, all'⟩ ∧
          ∀ w, w ∈ all' ↔ w ∈ all0 ∨ ∃ i ∈ deltas, ∃ j ∈ deltas, (i ≠ 0 ∨ j ≠ 0) ∧
            Finds g (setVisited v row col true) (cur ++ [boardAt g row col])
              (row + i, col + j) w := by
        intro all0
        apply forEach_collect _ _ _
          (fun i w => ∃ j ∈ deltas, (i ≠ 0 ∨ j ≠ 0) ∧
            Finds g (setVisited v row col true) (cur ++ [boardAt g row col])
              (row + i, col + j) w)
        intro i _ all1
        apply forEach_collect _ _ _
          (fun j w => (i ≠ 0 ∨ j ≠ 0) ∧
            Finds g (setVisited v row col true) (cur ++ [boardAt g row col])
              (row + i, col + j) w)
        intro j _ all2
        by_cases hij : i ≠ 0 ∨ j ≠ 0
        · obtain ⟨all3, h3, hmem3⟩ := findAllWordsHelper_spec g fuel (row + i) (col + j)
            ⟨cur ++ [boardAt g row col], setVisited v row col true, all2⟩ hv1
            (by simp only at hfuel hcard ⊢; omega)
          refine ⟨all3, by simp only [if_pos hij]; exact h3, ?_⟩
          intro w
          rw [hmem3]
          simp [hij]
        · exact ⟨all2, by simp only [if_neg hij], by simp [hij]⟩
      dsimp only
      obtain ⟨all', hrun, hmem⟩ := hloops
        (if (cur ++ [boardAt g row col]).length ≥ MIN_WORD_LENGTH ∧
            g.dictionary.contains (cur ++ [boardAt g row col]) = true then
          insert (cur ++ [boardAt g row col]) all
        else all)
      have hins : ∀ w, w ∈ (if (cur ++ [boardAt g row col]).length ≥ MIN_WORD_LENGTH ∧
            g.dictionary.contains (cur ++ [boardAt g row col]) = true then
          insert (cur ++ [boardAt g row col]) all
        else all) ↔ w ∈ all ∨ (w = cur ++ [boardAt g row col] ∧
          (cur ++ [boardAt g row col]).length ≥ MIN_WORD_LENGTH ∧
            g.dictionary.contains (cur ++ [boardAt g row col]) = true) := by
        intro w
        split_ifs with h
        · rw [Finset.mem_insert]
          constructor
          · rintro (h2 | h2)
            · exact Or.inr ⟨h2, h⟩
            · exact Or.inl h2
          · rintro (h2 | h2)
            · exact Or.inr h2
            · exact Or.inl h2.1
        · constructor
          · exact Or.inl
          · rintro (h2 | h2)
            · exact h2
            · exact absurd h2.2 h
      by_cases hp : g.dictionary.containsPrefix (cur ++ [boardAt g row col]) = true
      · rw [if_pos hp, hrun]
        refine ⟨all', by simp [setVisited_restore v row col hvis'], ?_⟩
        intro w
        rw [hmem, hins, finds_step g hv hin hvis', or_assoc]
        simp [hp]
      · rw [if_neg hp]
        refine ⟨(if (cur ++ [boardAt g row col]).length ≥ MIN_WORD_LENGTH ∧
            g.dictionary.contains (cur ++ [boardAt g row col]) = true then
          insert (cur ++ [boardAt g row col]) all
        else all), ?_, ?_⟩
        · simp only [List.dropLast_concat, setVisited_restore v row col hvis']
        · intro w
          rw [hins, finds_step g hv hin hvis']
          simp [hp]

/-- The result of `findAllWords`: exactly the words that the search from some
start cell reaches and records, next to those already in the set. -/
theorem findAllWordsLoop_spec (g : BoggleGame) (fuel : Nat) (all : Finset (List Char))
    (hfuel : g.boardSize * g.boardSize < fuel) :
    ∃ all', findAllWordsLoop g fuel all = some ⟨[], freshVisited g, all'⟩ ∧
      ∀ w, w ∈ all' ↔ w ∈ all ∨ ∃ i ∈ indices g, ∃ j ∈ indices g,
        Finds g (freshVisited g) [] (i, j) w := by
  rw [findAllWordsLoop]
  apply forEach_collect _ _ _
    (fun i w => ∃ j ∈ indices g, Finds g (freshVisited g) [] (i, j) w)
  intro i _ all1
  apply forEach_collect _ _ _ (fun j w => Finds g (freshVisited g) [] (i, j) w)
  intro j _ all2
  exact findAllWordsHelper_spec g fuel i j ⟨[], freshVisited g, all2⟩ (square_freshVisited g)
    (by rw [card_unmarked_freshVisited]; exact hfuel)

/-- The result of `findAllWords`, for a budget above the number of cells:
next to the words already in the set, exactly the words of the dictionary, at
least `MIN_WORD_LENGTH` long, that some path traces and of which every proper
non-empty prefix passes the prefix test. -/
theorem findAllWords_spec (g : BoggleGame) (fuel : Nat) (all : Finset (List Char))
    (hfuel : g.boardSize * g.boardSize < fuel) :
    ∃ result, findAllWords g fuel all = some result ∧
      ∀ w, w ∈ result ↔ w ∈ all ∨
        (w.length ≥ MIN_WORD_LENGTH ∧ g.dictionary.contains w = true ∧
          (∃ path, Traces g path w) ∧
          ∀ k, 0 < k → k < w.length → g.dictionary.containsPrefix (w.take k) = true) := by
  obtain ⟨all', hrun, hmem⟩ := findAllWordsLoop_spec g fuel all hfuel
  refine ⟨all', by rw [findAllWords, hrun]; rfl, ?_⟩
  intro w
  rw [hmem]
  apply or_congr_right
  constructor
  · rintro ⟨i, -, j, -, path, -, hwalk, hw, hlen, hcont, hpre⟩
    rw [List.nil_append] at hw
    have htr : Traces g path w := (traces_iff_walk g path w).mpr ⟨hwalk, hw.symm⟩
    refine ⟨hlen, hcont, ⟨path, htr⟩, ?_⟩
    intro k hk0 hk
    have h1 := hpre k hk0 (by rw [htr.1]; exact hk)
    rw [List.nil_append, letters, List.map_take] at h1
    rw [hw]
    exact h1
  · rintro ⟨hlen, hcont, ⟨path, htr⟩, hpre⟩
    have hwalk := (traces_iff_walk g path w).mp htr
    cases path with
    | nil =>
      have h1 := htr.1
      simp only [List.length_nil, MIN_WORD_LENGTH] at h1 hlen
      omega
    | cons p path =>
      have hp := (hwalk.1.2.1 p (List.mem_cons_self p path)).1
      simp only [InGrid] at hp
      refine ⟨p.1, (mem_indices g _).mpr ⟨hp.1, hp.2.1⟩, p.2,
        (mem_indices g _).mpr ⟨hp.2.2.1, hp.2.2.2⟩, p :: path, rfl, hwalk.1, ?_, hlen, hcont, ?_⟩
      · rw [List.nil_append]
        exact hwalk.2.symm
      · intro k hk0 hk
        have h1 := hpre k hk0 (by rw [← htr.1]; exact hk)
        rw [List.nil_append, letters, List.map_take]
        rw [← hwalk.2] at h1
        exact h1

/-! ## The enumeration with the minimum length as a setting -/

theorem toNat_ofNat_of_lt (n : Nat) (h : n < 55296) : (Char.ofNat n).toNat = n := by
  have hv : n.isValidChar := Or.inl h
  simp only [Char.ofNat, hv, dite_true, Char.toNat, Char.ofNatAux]
  simp [UInt32.toNat]

theorem char_toUpper_toUpper (c : Char) : c.toUpper.toUpper = c.toUpper := by
  by_cases h : c.toNat ≥ 97 ∧ c.toNat ≤ 122
  · have h1 : c.toUpper = Char.ofNat (c.toNat - 32) := by
      simp only [Char.toUpper, h, and_self, if_true]
    have h2 : (Char.ofNat (c.toNat - 32)).toNat = c.toNat - 32 :=
      toNat_ofNat_of_lt _ (by omega)
    have h3 : ¬((Char.ofNat (c.toNat - 32)).toNat ≥ 97 ∧
        (Char.ofNat (c.toNat - 32)).toNat ≤ 122) := by
      rw [h2]; omega
    rw [h1]
    simp only [Char.toUpper, h3, if_false]
  · have h1 : c.toUpper = c := by
      simp only [Char.toUpper, h, if_false]
    rw [h1, h1]

theorem toUpper_toUpper (s : List Char) : toUpper (toUpper s) = toUpper s := by
  simp only [toUpper, List.map_map]
  apply List.map_congr_left
  intro c _
  exact char_toUpper_toUpper c

theorem length_toUpper (s : List Char) : (toUpper s).length = s.length := by
  simp [toUpper]

/-! ## The scenario of the specification -/

theorem wordsLexicon_closed (ws : List (List Char)) (w : List Char)
    (hw : (wordsLexicon ws).contains w = true) (p : List Char) (hp : p <+: w) :
    (wordsLexicon ws).containsPrefix p = true := by
  simp only [wordsLexicon, decide_eq_true_eq] at hw
  simp only [wordsLexicon, List.any_eq_true, List.isPrefixOf_iff_prefix]
  exact ⟨w, hw, hp⟩

theorem traces_cat (d : Lexicon) :
    Traces (catGame d) [(0, 0), (0, 1), (1, 0)] ['C', 'A', 'T'] := by
  refine ⟨rfl, by decide, ?_, ?_, ?_⟩
  · simp [InGrid, catGame]
  · simp [Adjacent]
  · simp [letters, boardAt, catGame, catBoard]

theorem traces_cats (d : Lexicon) :
    Traces (catGame d) [(0, 0), (0, 1), (1, 0), (1, 1)] ['C', 'A', 'T', 'S'] := by
  refine ⟨rfl, by decide, ?_, ?_, ?_⟩
  · simp [InGrid, catGame]
  · simp [Adjacent]
  · simp [letters, boardAt, catGame, catBoard]

/-! ## The claims -/

/-- C1: for every board (so for every `N × N` board with `1 ≤ N ≤ 20`), every
non-empty word and every recursion budget above the length of the word,
`findWordOnBoard` returns, and it returns true exactly when there is a
sequence of as many cells as the word has letters, pairwise distinct, all on
the grid, consecutive ones differing by at most 1 in row and in column, whose
letters in order are the word. -/
theorem findWordOnBoard_true_iff_path (g : BoggleGame) (word : List Char)
    (hne : word ≠ []) (fuel : Nat) (hfuel : word.length < fuel) :
    ∃ b, findWordOnBoard g fuel word = some b ∧
      (b = true ↔ ∃ path : List Cell, path.length = word.length ∧ path.Nodup ∧
        (∀ p ∈ path, InGrid g p) ∧ path.Chain' Adjacent ∧ letters g path = word) := by
  obtain ⟨b, hb, hiff⟩ := findWordOnBoard_spec g fuel word (Or.inl hfuel)
  refine ⟨b, hb, ?_⟩
  rw [hiff]
  simp only [Traces, ne_eq, hne, not_false_eq_true, true_and]

theorem findWordOnBoard_true_iff_path_witness :
    ['C', 'A', 'T'] ≠ [] ∧ ['C', 'A', 'T'].length < 4 ∧
      ∃ b, findWordOnBoard (catGame (wordsLexicon catWords)) 4 ['C', 'A', 'T'] = some b ∧
        (b = true ↔ ∃ path : List Cell, path.length = ['C', 'A', 'T'].length ∧ path.Nodup ∧
          (∀ p ∈ path, InGrid (catGame (wordsLexicon catWords)) p) ∧ path.Chain' Adjacent ∧
          letters (catGame (wordsLexicon catWords)) path = ['C', 'A', 'T']) :=
  ⟨by decide, by decide,
    findWordOnBoard_true_iff_path (catGame (wordsLexicon catWords)) ['C', 'A', 'T']
      (by decide) 4 (by decide)⟩

/-- C2: for every board and dictionary and a recursion budget above the
number of cells, `findAllWords` on the empty set returns, and every word of
its result is contained in the dictionary, is found by `findWordOnBoard` and
has at least `MIN_WORD_LENGTH` letters. -/
theorem findAllWords_only_valid_words (g : BoggleGame) (fuel : Nat)
    (hfuel : g.boardSize * g.boardSize < fuel) :
    ∃ result, findAllWords g fuel ∅ = some result ∧
      ∀ w ∈ result, g.dictionary.contains w = true ∧ findWordOnBoard g fuel w = some true ∧
        w.length ≥ MIN_WORD_LENGTH := by
  obtain ⟨result, hrun, hmem⟩ := findAllWords_spec g fuel ∅ hfuel
  refine ⟨result, hrun, ?_⟩
  intro w hw
  rcases (hmem w).mp hw with h | ⟨hlen, hcont, hpath, -⟩
  · exact absurd h (Finset.not_mem_empty w)
  · refine ⟨hcont, ?_, hlen⟩
    obtain ⟨b, hb, hiff⟩ := findWordOnBoard_spec g fuel w (Or.inr hfuel)
    have hne : w ≠ [] := by
      intro h
      rw [h] at hlen
      simp [MIN_WORD_LENGTH] at hlen
    rw [hb, hiff.mpr ⟨hne, hpath⟩]

theorem findAllWords_only_valid_words_witness :
    (catGame (wordsLexicon catWords)).boardSize * (catGame (wordsLexicon catWords)).boardSize < 5 ∧
      ∃ result, findAllWords (catGame (wordsLexicon catWords)) 5 ∅ = some result ∧
        ∀ w ∈ result, (catGame (wordsLexicon catWords)).dictionary.contains w = true ∧
          findWordOnBoard (catGame (wordsLexicon catWords)) 5 w = some true ∧
          w.length ≥ MIN_WORD_LENGTH :=
  ⟨by decide, findAllWords_only_valid_words (catGame (wordsLexicon catWords)) 5 (by decide)⟩

/-- C3: when `containsPrefix` holds of every non-empty prefix of every
contained word, then for every board and a recursion budget above the number
of cells `findAllWords` on the empty set returns, and its result has every
word of at least `MIN_WORD_LENGTH` letters that the dictionary contains and
that `findWordOnBoard` finds. -/
theorem findAllWords_finds_every_word (g : BoggleGame)
    (hclosed : ∀ w, g.dictionary.contains w = true → ∀ p, p ≠ [] → p <+: w →
      g.dictionary.containsPrefix p = true)
    (fuel : Nat) (hfuel : g.boardSize * g.boardSize < fuel) :
    ∃ result, findAllWords g fuel ∅ = some result ∧
      ∀ w, w.length ≥ MIN_WORD_LENGTH → g.dictionary.contains w = true →
        findWordOnBoard g fuel w = some true → w ∈ result := by
  obtain ⟨result, hrun, hmem⟩ := findAllWords_spec g fuel ∅ hfuel
  refine ⟨result, hrun, ?_⟩
  intro w hlen hcont hfound
  obtain ⟨b, hb, hiff⟩ := findWordOnBoard_spec g fuel w (Or.inr hfuel)
  rw [hb, Option.some.injEq] at hfound
  refine (hmem w).mpr (Or.inr ⟨hlen, hcont, (hiff.mp hfound).2, ?_⟩)
  intro k hk0 hk
  refine hclosed w hcont _ ?_ ⟨w.drop k, List.take_append_drop k w⟩
  intro h
  have h1 := congrArg List.length h
  rw [List.length_take, List.length_nil] at h1
  omega

theorem findAllWords_finds_every_word_witness :
    (∀ w, (catGame (wordsLexicon catWords)).dictionary.contains w = true → ∀ p, p ≠ [] →
        p <+: w → (catGame (wordsLexicon catWords)).dictionary.containsPrefix p = true) ∧
      (catGame (wordsLexicon catWords)).boardSize * (catGame (wordsLexicon catWords)).boardSize < 5 ∧
      ∃ result, findAllWords (catGame (wordsLexicon catWords)) 5 ∅ = some result ∧
        ∀ w, w.length ≥ MIN_WORD_LENGTH →
          (catGame (wordsLexicon catWords)).dictionary.contains w = true →
          findWordOnBoard (catGame (wordsLexicon catWords)) 5 w = some true → w ∈ result :=
  ⟨fun w hw p _ hp => wordsLexicon_closed catWords w hw p hp, by decide,
    findAllWords_finds_every_word (catGame (wordsLexicon catWords))
      (fun w hw p _ hp => wordsLexicon_closed catWords w hw p hp) 5 (by decide)⟩

/-- C4: when the word is empty or longer than `boardSize * boardSize`,
`findWordOnBoard` returns false, and it does so for every recursion budget,
the budget 0 included, with which no call of `findWordFromCell` returns: the
search is not entered. -/
theorem findWordOnBoard_guard_no_search (g : BoggleGame) (word : List Char)
    (h : word = [] ∨ word.length > g.boardSize * g.boardSize) :
    (∀ fuel, findWordOnBoard g fuel word = some false) ∧
      findWordOnBoard g 0 word = some false ∧
      ∀ w index row col visited, findWordFromCell g 0 w index row col visited = none := by
  have h1 : ∀ fuel, findWordOnBoard g fuel word = some false := by
    intro fuel
    rw [findWordOnBoard, if_pos h]
  exact ⟨h1, h1 0, fun _ _ _ _ _ => rfl⟩

theorem findWordOnBoard_guard_no_search_witness :
    (['C', 'A', 'T', 'S', 'C'] = [] ∨
        ['C', 'A', 'T', 'S', 'C'].length >
          (catGame (wordsLexicon catWords)).boardSize *
            (catGame (wordsLexicon catWords)).boardSize) ∧
      (∀ fuel, findWordOnBoard (catGame (wordsLexicon catWords)) fuel
        ['C', 'A', 'T', 'S', 'C'] = some false) ∧
      findWordOnBoard (catGame (wordsLexicon catWords)) 0 ['C', 'A', 'T', 'S', 'C'] =
        some false ∧
      ∀ w index row col visited,
        findWordFromCell (catGame (wordsLexicon catWords)) 0 w index row col visited = none :=
  ⟨by decide,
    findWordOnBoard_guard_no_search (catGame (wordsLexicon catWords)) ['C', 'A', 'T', 'S', 'C']
      (by decide)⟩

/-- C5: for every word, index, cell (on the grid or not) and `N × N` marker,
and every recursion budget above the number of letters left, `findWordFromCell`
returns, with either result, and the marker it leaves is the marker on entry;
so the search of `findWordOnBoard`, whenever its guard lets it run, ends with
an `N × N` marker that is false everywhere. -/
theorem findWordFromCell_restores_marker (g : BoggleGame) (word : List Char) (index : Nat)
    (row col : Int) (visited : Visited) (hv : Square g.boardSize visited) (fuel : Nat)
    (hfuel : word.length - index < fuel) :
    (∃ b, findWordFromCell g fuel word index row col visited = some (b, visited)) ∧
      (word ≠ [] → word.length < fuel →
        ∃ b visited', findWordOnBoardLoop g fuel word = some (b, visited') ∧
          Square g.boardSize visited' ∧ ∀ r ∈ visited', ∀ x ∈ r, x = false) := by
  constructor
  · obtain ⟨b, hb, -⟩ := findWordFromCell_spec g fuel word index row col visited hv hfuel
    exact ⟨b, hb⟩
  · intro hne hlen
    obtain ⟨b, hb, -⟩ := findWordOnBoardLoop_spec g fuel word hne hlen
    refine ⟨b, freshVisited g, hb, square_freshVisited g, ?_⟩
    intro r hr x hx
    rw [freshVisited, List.mem_replicate] at hr
    rw [hr.2, List.mem_replicate] at hx
    exact hx.2

theorem findWordFromCell_restores_marker_witness :
    Square (catGame (wordsLexicon catWords)).boardSize [[false, true], [false, false]] ∧
      ['C', 'A', 'T'].length - 0 < 4 ∧
      (∃ b, findWordFromCell (catGame (wordsLexicon catWords)) 4 ['C', 'A', 'T'] 0 0 0
          [[false, true], [false, false]] = some (b, [[false, true], [false, false]])) ∧
      (['C', 'A', 'T'] ≠ [] → ['C', 'A', 'T'].length < 4 →
        ∃ b visited', findWordOnBoardLoop (catGame (wordsLexicon catWords)) 4 ['C', 'A', 'T'] =
            some (b, visited') ∧
          Square (catGame (wordsLexicon catWords)).boardSize visited' ∧
          ∀ r ∈ visited', ∀ x ∈ r, x = false) :=
  ⟨by simp [Square, catGame], by decide,
    findWordFromCell_restores_marker (catGame (wordsLexicon catWords)) ['C', 'A', 'T'] 0 0 0
      [[false, true], [false, false]] (by simp [Square, catGame]) 4 (by decide)⟩

/-- C6: for every cell (on the grid or not), candidate string, `N × N` marker
and result set, and every recursion budget above the number of cells,
`findAllWordsHelper` returns; the candidate string and the marker it leaves
are those on entry, and the result set has only grown. -/
theorem findAllWordsHelper_restores_state (g : BoggleGame) (row col : Int) (s : SearchState)
    (hv : Square g.boardSize s.visited) (fuel : Nat)
    (hfuel : g.boardSize * g.boardSize < fuel) :
    ∃ s', findAllWordsHelper g fuel row col s = some s' ∧ s'.currentWord = s.currentWord ∧
      s'.visited = s.visited ∧ s.allWords ⊆ s'.allWords := by
  obtain ⟨all', hrun, hmem⟩ := findAllWordsHelper_spec g fuel row col s hv
    (lt_of_le_of_lt (card_unmarked_le g s.visited) hfuel)
  exact ⟨_, hrun, rfl, rfl, fun w hw => (hmem w).mpr (Or.inl hw)⟩

theorem findAllWordsHelper_restores_state_witness :
    Square (catGame (wordsLexicon catWords)).boardSize
        (SearchState.mk ['C'] [[true, false], [false, false]] ∅).visited ∧
      (catGame (wordsLexicon catWords)).boardSize * (catGame (wordsLexicon catWords)).boardSize < 5 ∧
      ∃ s', findAllWordsHelper (catGame (wordsLexicon catWords)) 5 0 1
          (SearchState.mk ['C'] [[true, false], [false, false]] ∅) = some s' ∧
        s'.currentWord = (SearchState.mk ['C'] [[true, false], [false, false]] ∅).currentWord ∧
        s'.visited = (SearchState.mk ['C'] [[true, false], [false, false]] ∅).visited ∧
        (SearchState.mk ['C'] [[true, false], [false, false]] ∅).allWords ⊆ s'.allWords :=
  ⟨by simp [Square, catGame], by decide,
    findAllWordsHelper_restores_state (catGame (wordsLexicon catWords)) 0 1
      (SearchState.mk ['C'] [[true, false], [false, false]] ∅) (by simp [Square, catGame]) 5
      (by decide)⟩

/-- C7: for every word, every set of words already found and every recursion
budget above the length of the word, `isValidWord` returns, and it returns
true exactly when the word has at least `MIN_WORD_LENGTH` (4) letters, the
dictionary contains its upper-case form, `findWordOnBoard` finds its
upper-case form and no word already found has the same upper-case form; so a
word of fewer than 4 letters is rejected, and a valid word is both in the
dictionary and found on the board. -/
theorem isValidWord_iff (g : BoggleGame) (word : List Char) (playerWords : Finset (List Char))
    (fuel : Nat) (hfuel : word.length < fuel) :
    ∃ b, isValidWord g fuel word playerWords = some b ∧
      (b = true ↔ word.length ≥ MIN_WORD_LENGTH ∧
        g.dictionary.contains (toUpper word) = true ∧
        findWordOnBoard g fuel (toUpper word) = some true ∧
        ¬∃ p ∈ playerWords, toUpper p = toUpper (toUpper word)) ∧
      (word.length < 4 → b = false) ∧
      (b = true → g.dictionary.contains (toUpper word) = true ∧
        findWordOnBoard g fuel (toUpper word) = some true) := by
  obtain ⟨b, hb, -⟩ := findWordOnBoard_spec g fuel (toUpper word)
    (Or.inl (by rw [length_toUpper]; exact hfuel))
  have key : ∃ b', isValidWord g fuel word playerWords = some b' ∧
      (b' = true ↔ word.length ≥ MIN_WORD_LENGTH ∧
        g.dictionary.contains (toUpper word) = true ∧
        findWordOnBoard g fuel (toUpper word) = some true ∧
        ¬∃ p ∈ playerWords, toUpper p = toUpper (toUpper word)) := by
    rw [isValidWord, toUpper_toUpper]
    by_cases h1 : word.length ≥ MIN_WORD_LENGTH ∧ g.dictionary.contains (toUpper word) = true
    · simp only [h1, and_self, if_true, true_and, hb]
      cases b with
      | true => exact ⟨_, rfl, by simp [containsIgnoreCase]⟩
      | false => exact ⟨_, rfl, by simp⟩
    · rw [if_neg h1]
      refine ⟨false, rfl, ?_⟩
      simp only [Bool.false_eq_true, false_iff]
      intro h2
      exact h1 ⟨h2.1, h2.2.1⟩
  obtain ⟨b', hb', hiff⟩ := key
  refine ⟨b', hb', hiff, ?_, ?_⟩
  · intro hshort
    cases b' with
    | false => rfl
    | true =>
      have h2 := (hiff.mp rfl).1
      simp only [MIN_WORD_LENGTH] at h2
      omega
  · intro htrue
    have h2 := hiff.mp htrue
    exact ⟨h2.2.1, h2.2.2.1⟩

theorem isValidWord_iff_witness :
    ['c', 'a', 't', 's'].length < 5 ∧
      ∃ b, isValidWord (catGame (wordsLexicon catWords)) 5 ['c', 'a', 't', 's'] ∅ = some b ∧
        (b = true ↔ ['c', 'a', 't', 's'].length ≥ MIN_WORD_LENGTH ∧
          (catGame (wordsLexicon catWords)).dictionary.contains
            (toUpper ['c', 'a', 't', 's']) = true ∧
          findWordOnBoard (catGame (wordsLexicon catWords)) 5 (toUpper ['c', 'a', 't', 's']) =
            some true ∧
          ¬∃ p ∈ (∅ : Finset (List Char)), toUpper p = toUpper (toUpper ['c', 'a', 't', 's'])) ∧
        (['c', 'a', 't', 's'].length < 4 → b = false) ∧
        (b = true →
          (catGame (wordsLexicon catWords)).dictionary.contains
            (toUpper ['c', 'a', 't', 's']) = true ∧
          findWordOnBoard (catGame (wordsLexicon catWords)) 5 (toUpper ['c', 'a', 't', 's']) =
            some true) :=
  ⟨by decide, isValidWord_iff (catGame (wordsLexicon catWords)) ['c', 'a', 't', 's'] ∅ 5
    (by decide)⟩

theorem findWordOnBoard_catGame (d : Lexicon) (fuel : Nat) (hfuel : 4 < fuel) :
    findWordOnBoard (catGame d) fuel ['C', 'A', 'T'] = some true ∧
      findWordOnBoard (catGame d) fuel ['C', 'A', 'T', 'S'] = some true := by
  constructor
  · obtain ⟨b, hb, hiff⟩ := findWordOnBoard_spec (catGame d) fuel ['C', 'A', 'T']
      (Or.inl (by simp only [List.length_cons, List.length_nil]; omega))
    rw [hb, hiff.mpr ⟨by simp, _, traces_cat d⟩]
  · obtain ⟨b, hb, hiff⟩ := findWordOnBoard_spec (catGame d) fuel ['C', 'A', 'T', 'S']
      (Or.inl (by simp only [List.length_cons, List.length_nil]; omega))
    rw [hb, hiff.mpr ⟨by simp, _, traces_cats d⟩]

/-- C8: on the grid `[[C,A],[T,S]]`, whatever the dictionary, with a recursion
budget above 4 `findWordOnBoard` returns true for `CAT` and for `CATS`. -/
theorem findWordOnBoard_cat_cats (d : Lexicon) (fuel : Nat) (hfuel : 4 < fuel) :
    findWordOnBoard (catGame d) fuel ['C', 'A', 'T'] = some true ∧
      findWordOnBoard (catGame d) fuel ['C', 'A', 'T', 'S'] = some true :=
  findWordOnBoard_catGame d fuel hfuel

theorem findWordOnBoard_cat_cats_witness :
    4 < 5 ∧
      findWordOnBoard (catGame (wordsLexicon catWords)) 5 ['C', 'A', 'T'] = some true ∧
      findWordOnBoard (catGame (wordsLexicon catWords)) 5 ['C', 'A', 'T', 'S'] = some true :=
  ⟨by decide, findWordOnBoard_cat_cats (wordsLexicon catWords) 5 (by decide)⟩

/-- With the constant `MIN_WORD_LENGTH` of the source, which is 4, the same
scenario gives `CATS` alone: on the grid `[[C,A],[T,S]]`, for every
dictionary that contains exactly `CAT`, `CATS`, `ACT` and whose
`containsPrefix` holds of the non-empty prefixes of these words, `findAllWords`
returns exactly the words among them that have at least 4 letters and that
`findWordOnBoard` finds. -/
theorem findAllWords_catGame_at_constant (d : Lexicon)
    (hcontains : ∀ w, d.contains w = true ↔ w ∈ catWords)
    (hclosed : ∀ w, d.contains w = true → ∀ p, p ≠ [] → p <+: w → d.containsPrefix p = true)
    (fuel : Nat) (hfuel : 4 < fuel) :
    ∃ result, findAllWords (catGame d) fuel ∅ = some result ∧
      (∀ w, w ∈ result ↔ w ∈ catWords ∧ w.length ≥ MIN_WORD_LENGTH ∧
        findWordOnBoard (catGame d) fuel w = some true) ∧
      result = {['C', 'A', 'T', 'S']} ∧ MIN_WORD_LENGTH = 4 := by
  obtain ⟨result, hrun, hmem⟩ := findAllWords_spec (catGame d) fuel ∅ hfuel
  have hchar : ∀ w, w ∈ result ↔ w ∈ catWords ∧ w.length ≥ MIN_WORD_LENGTH ∧
      findWordOnBoard (catGame d) fuel w = some true := by
    intro w
    obtain ⟨b, hb, hiff⟩ := findWordOnBoard_spec (catGame d) fuel w (Or.inr hfuel)
    rw [hmem, hb, Option.some.injEq, hiff]
    constructor
    · rintro (h | ⟨hlen, hcont, hpath, -⟩)
      · exact absurd h (Finset.not_mem_empty w)
      · refine ⟨(hcontains w).mp hcont, hlen, ?_, hpath⟩
        intro h
        rw [h] at hlen
        simp [MIN_WORD_LENGTH] at hlen
    · rintro ⟨hw, hlen, -, hpath⟩
      have hcont := (hcontains w).mpr hw
      refine Or.inr ⟨hlen, hcont, hpath, ?_⟩
      intro k hk0 hk
      refine hclosed w hcont _ ?_ ⟨w.drop k, List.take_append_drop k w⟩
      intro h
      have h1 := congrArg List.length h
      rw [List.length_take, List.length_nil] at h1
      omega
  refine ⟨result, hrun, hchar, ?_, rfl⟩
  ext w
  rw [hchar, Finset.mem_singleton]
  constructor
  · rintro ⟨hw, hlen, -⟩
    simp only [catWords, List.mem_cons, List.mem_singleton, List.not_mem_nil, or_false] at hw
    rcases hw with h | h | h
    · rw [h] at hlen; simp [MIN_WORD_LENGTH] at hlen
    · exact h
    · rw [h] at hlen; simp [MIN_WORD_LENGTH] at hlen
  · intro h
    rw [h]
    exact ⟨by simp [catWords], by simp [MIN_WORD_LENGTH],
      (findWordOnBoard_catGame d fuel hfuel).2⟩

/-- C10: on the grid `[[A]]`, with the minimum length `MIN_WORD_LENGTH = 4`,
for every dictionary, whatever its two queries answer, and every recursion
budget above 1, `findAllWords` on the empty set returns the empty set. -/
theorem findAllWords_single_cell_empty (d : Lexicon) (fuel : Nat) (hfuel : 1 < fuel) :
    findAllWords (singleGame d) fuel ∅ = some ∅ ∧ MIN_WORD_LENGTH = 4 := by
  obtain ⟨result, hrun, hmem⟩ := findAllWords_spec (singleGame d) fuel ∅ hfuel
  refine ⟨?_, rfl⟩
  rw [hrun, Option.some.injEq]
  apply Finset.eq_empty_of_forall_not_mem
  intro w hw
  rcases (hmem w).mp hw with h | ⟨hlen, -, ⟨path, hpath⟩, -⟩
  · exact absurd h (Finset.not_mem_empty w)
  · have h1 := length_le_of_nodup_inGrid (singleGame d) path hpath.2.1 hpath.2.2.1
    rw [hpath.1] at h1
    simp only [MIN_WORD_LENGTH, singleGame] at h1 hlen
    omega

theorem findAllWords_single_cell_empty_witness :
    1 < 2 ∧ findAllWords (singleGame (wordsLexicon [['A', 'A', 'A', 'A']])) 2 ∅ = some ∅ ∧
      MIN_WORD_LENGTH = 4 :=
  ⟨by decide, findAllWords_single_cell_empty (wordsLexicon [['A', 'A', 'A', 'A']]) 2
    (by decide)⟩

/-! ## Further consequences of the characterisations -/

/-- On a square board the read `board[row][col]` of a grid cell yields a member
of a row of the board. -/
theorem boardAt_mem (g : BoggleGame) (hb : BoardSquare g) {p : Cell} (hp : InGrid g p) :
    ∃ r ∈ g.board, boardAt g p.1 p.2 ∈ r := by
  simp only [InGrid] at hp
  have hi : p.1.toNat < g.board.length := by rw [hb.1]; omega
  have hj : p.2.toNat < (g.board[p.1.toNat]).length := by
    rw [hb.2 _ (List.getElem_mem hi)]; omega
  refine ⟨g.board[p.1.toNat], List.getElem_mem hi, ?_⟩
  have h : boardAt g p.1 p.2 = (g.board[p.1.toNat])[p.2.toNat] := by
    simp [boardAt, hi, hj]
  rw [h]
  exact List.getElem_mem hj

theorem traces_take (g : BoggleGame) {path : List Cell} {w : List Char} (h : Traces g path w)
    (k : Nat) : Traces g (path.take k) (w.take k) := by
  obtain ⟨h1, h2, h3, h4, h5⟩ := h
  refine ⟨by rw [List.length_take, List.length_take, h1],
    h2.sublist (List.take_sublist k path), fun p hp => h3 p (List.mem_of_mem_take hp),
    h4.take k, ?_⟩
  rw [← h5, letters, letters, List.map_take]

theorem adjacent_symm {p q : Cell} (h : Adjacent p q) : Adjacent q p := by
  simp only [Adjacent] at h ⊢
  rw [abs_sub_comm q.1, abs_sub_comm q.2]
  exact h

theorem traces_reverse (g : BoggleGame) {path : List Cell} {w : List Char}
    (h : Traces g path w) : Traces g path.reverse w.reverse := by
  obtain ⟨h1, h2, h3, h4, h5⟩ := h
  refine ⟨by simp [h1], List.nodup_reverse.mpr h2, fun p hp => h3 p (List.mem_reverse.mp hp),
    ?_, ?_⟩
  · rw [List.chain'_reverse]
    exact h4.imp (fun _ _ hab => adjacent_symm hab)
  · rw [← h5, letters, letters, List.map_reverse]

/-- C11: when the dictionary is empty, that is when `contains` and
`containsPrefix` are false of every non-empty string, then for every board and
every recursion budget above the number of cells `findAllWords` on the empty
set returns the empty set. -/
theorem findAllWords_empty_dictionary (g : BoggleGame)
    (hempty : ∀ w, w ≠ [] →
      g.dictionary.contains w = false ∧ g.dictionary.containsPrefix w = false)
    (fuel : Nat) (hfuel : g.boardSize * g.boardSize < fuel) :
    findAllWords g fuel ∅ = some ∅ := by
  obtain ⟨result, hrun, hmem⟩ := findAllWords_spec g fuel ∅ hfuel
  rw [hrun, Option.some.injEq]
  apply Finset.eq_empty_of_forall_not_mem
  intro w hw
  rcases (hmem w).mp hw with h | ⟨hlen, hcont, -, -⟩
  · exact absurd h (Finset.not_mem_empty w)
  · have hne : w ≠ [] := by
      intro h
      rw [h] at hlen
      simp [MIN_WORD_LENGTH] at hlen
    rw [(hempty w hne).1] at hcont
    exact Bool.noConfusion hcont

theorem findAllWords_empty_dictionary_witness :
    (∀ w, w ≠ [] →
        (catGame (wordsLexicon [])).dictionary.contains w = false ∧
          (catGame (wordsLexicon [])).dictionary.containsPrefix w = false) ∧
      (catGame (wordsLexicon [])).boardSize * (catGame (wordsLexicon [])).boardSize < 5 ∧
      findAllWords (catGame (wordsLexicon [])) 5 ∅ = some ∅ :=
  ⟨fun w _ => by simp [catGame, wordsLexicon], by decide,
    findAllWords_empty_dictionary (catGame (wordsLexicon []))
      (fun w _ => by simp [catGame, wordsLexicon]) 5 (by decide)⟩

/-- C14: on a square board whose cells are all upper-case letters `A` to `Z`,
for a word with at least one character outside `A` to `Z` and a recursion
budget above the number of cells, `findWordOnBoard` returns the boolean false;
and with that budget it returns a boolean for every string, the empty and the
oversized ones included. -/
theorem findWordOnBoard_foreign_character (g : BoggleGame) (hb : BoardSquare g)
    (hu : UpperCase g) (word : List Char) (hword : ∃ c ∈ word, c.isUpper = false)
    (fuel : Nat) (hfuel : g.boardSize * g.boardSize < fuel) :
    findWordOnBoard g fuel word = some false ∧
      ∀ w, ∃ b, findWordOnBoard g fuel w = some b := by
  constructor
  · obtain ⟨b, hrun, hiff⟩ := findWordOnBoard_spec g fuel word (Or.inr hfuel)
    rw [hrun, Option.some.injEq]
    cases b with
    | false => rfl
    | true =>
      exfalso
      obtain ⟨-, path, -, -, hin, -, hlet⟩ := hiff.mp rfl
      obtain ⟨c, hc, hcu⟩ := hword
      rw [← hlet, letters, List.mem_map] at hc
      obtain ⟨p, hp, hpc⟩ := hc
      obtain ⟨r, hr, hmem⟩ := boardAt_mem g hb (hin p hp)
      have h1 := hu r hr _ hmem
      rw [hpc, hcu] at h1
      exact Bool.noConfusion h1
  · intro w
    obtain ⟨b, hrun, -⟩ := findWordOnBoard_spec g fuel w (Or.inr hfuel)
    exact ⟨b, hrun⟩

theorem findWordOnBoard_foreign_character_witness :
    BoardSquare (catGame (wordsLexicon catWords)) ∧ UpperCase (catGame (wordsLexicon catWords)) ∧
      (∃ c ∈ ['C', 'a', 'T'], c.isUpper = false) ∧
      (catGame (wordsLexicon catWords)).boardSize * (catGame (wordsLexicon catWords)).boardSize < 5 ∧
      findWordOnBoard (catGame (wordsLexicon catWords)) 5 ['C', 'a', 'T'] = some false ∧
      ∀ w, ∃ b, findWordOnBoard (catGame (wordsLexicon catWords)) 5 w = some b :=
  ⟨by simp [BoardSquare, catGame, catBoard], by simp [UpperCase, catGame, catBoard],
    ⟨'a', by simp, by decide⟩, by decide,
    findWordOnBoard_foreign_character (catGame (wordsLexicon catWords))
      (by simp [BoardSquare, catGame, catBoard])
      (by simp [UpperCase, catGame, catBoard]) ['C', 'a', 'T']
      ⟨'a', by simp, by decide⟩ 5 (by decide)⟩

/-- C15: when `findAllWordsHelper` is called on an unmarked grid cell and the
extended candidate fails the prefix test, the call returns with any budget of
at least one call, even the budget 1 that lets no nested call return: no
neighbour is explored. The candidate and the marker are those on entry, and
the result set is the one on entry, with the extended candidate added exactly
when it has at least `MIN_WORD_LENGTH` letters and the dictionary contains it. -/
theorem findAllWordsHelper_prunes (g : BoggleGame) (row col : Int) (s : SearchState)
    (hin : InGrid g (row, col)) (hvis : visitedAt s.visited row col = false)
    (hpre : g.dictionary.containsPrefix (s.currentWord ++ [boardAt g row col]) = false)
    (fuel : Nat) :
    findAllWordsHelper g (fuel + 1) row col s =
        some ⟨s.currentWord, s.visited,
          if (s.currentWord ++ [boardAt g row col]).length ≥ MIN_WORD_LENGTH ∧
              g.dictionary.contains (s.currentWord ++ [boardAt g row col]) = true then
            insert (s.currentWord ++ [boardAt g row col]) s.allWords
          else s.allWords⟩ ∧
      ∀ r c s', findAllWordsHelper g 0 r c s' = none := by
  refine ⟨?_, fun _ _ _ => rfl⟩
  simp only [InGrid] at hin
  have hguard : ¬(row < 0 ∨ row ≥ g.boardSize ∨ col < 0 ∨ col ≥ g.boardSize ∨
      visitedAt s.visited row col = true) := by
    rw [hvis]
    simp only [Bool.false_eq_true, or_false]
    omega
  rw [findAllWordsHelper, if_neg hguard]
  simp only [hpre, Bool.false_eq_true, if_false, List.dropLast_concat,
    setVisited_restore s.visited row col hvis]

theorem findAllWordsHelper_prunes_witness :
    InGrid (catGame (wordsLexicon catWords)) (1, 1) ∧
      visitedAt (SearchState.mk ['A'] [[false, true], [false, false]] ∅).visited 1 1 = false ∧
      (catGame (wordsLexicon catWords)).dictionary.containsPrefix
        ((SearchState.mk ['A'] [[false, true], [false, false]] ∅).currentWord ++
          [boardAt (catGame (wordsLexicon catWords)) 1 1]) = false ∧
      findAllWordsHelper (catGame (wordsLexicon catWords)) (0 + 1) 1 1
          (SearchState.mk ['A'] [[false, true], [false, false]] ∅) =
        some ⟨(SearchState.mk ['A'] [[false, true], [false, false]] ∅).currentWord,
          (SearchState.mk ['A'] [[false, true], [false, false]] ∅).visited,
          if ((SearchState.mk ['A'] [[false, true], [false, false]] ∅).currentWord ++
                [boardAt (catGame (wordsLexicon catWords)) 1 1]).length ≥ MIN_WORD_LENGTH ∧
              (catGame (wordsLexicon catWords)).dictionary.contains
                ((SearchState.mk ['A'] [[false, true], [false, false]] ∅).currentWord ++
                  [boardAt (catGame (wordsLexicon catWords)) 1 1]) = true then
            insert ((SearchState.mk ['A'] [[false, true], [false, false]] ∅).currentWord ++
              [boardAt (catGame (wordsLexicon catWords)) 1 1])
              (SearchState.mk ['A'] [[false, true], [false, false]] ∅).allWords
          else (SearchState.mk ['A'] [[false, true], [false, false]] ∅).allWords⟩ ∧
      ∀ r c s', findAllWordsHelper (catGame (wordsLexicon catWords)) 0 r c s' = none :=
  ⟨by simp [InGrid, catGame], by decide, by decide,
    findAllWordsHelper_prunes (catGame (wordsLexicon catWords)) 1 1
      (SearchState.mk ['A'] [[false, true], [false, false]] ∅)
      (by simp [InGrid, catGame]) (by decide) (by decide) 0⟩

/-- C16: when `containsPrefix` holds of every non-empty prefix of every
contained word, a word `w` is contained in the dictionary and found by
`findWordOnBoard`, and a prefix `p` of `w` (a proper one in particular) with
at least `MIN_WORD_LENGTH` letters is contained too, then `findAllWords` on
the empty set returns, with a recursion budget above the number of cells, a
set that has both `p` and `w`. -/
theorem findAllWords_compound_match (g : BoggleGame)
    (hclosed : ∀ w, g.dictionary.contains w = true → ∀ p, p ≠ [] → p <+: w →
      g.dictionary.containsPrefix p = true)
    (w p : List Char) (fuel : Nat) (hfuel : g.boardSize * g.boardSize < fuel)
    (hw : g.dictionary.contains w = true) (hfound : findWordOnBoard g fuel w = some true)
    (hpw : p <+: w) (hlen : p.length ≥ MIN_WORD_LENGTH)
    (hp : g.dictionary.contains p = true) :
    ∃ result, findAllWords g fuel ∅ = some result ∧ p ∈ result ∧ w ∈ result := by
  obtain ⟨result, hrun, hmem⟩ := findAllWords_spec g fuel ∅ hfuel
  obtain ⟨b, hb, hiff⟩ := findWordOnBoard_spec g fuel w (Or.inr hfuel)
  rw [hb, Option.some.injEq] at hfound
  obtain ⟨-, path, hpath⟩ := hiff.mp hfound
  have hpre : ∀ u, g.dictionary.contains u = true → ∀ k, 0 < k → k < u.length →
      g.dictionary.containsPrefix (u.take k) = true := by
    intro u hu k hk0 hk
    refine hclosed u hu _ ?_ ⟨u.drop k, List.take_append_drop k u⟩
    intro h
    have h1 := congrArg List.length h
    rw [List.length_take, List.length_nil] at h1
    omega
  have hlenw : w.length ≥ MIN_WORD_LENGTH := le_trans hlen hpw.length_le
  have hptake : p = w.take p.length := by
    obtain ⟨t, ht⟩ := hpw
    rw [← ht, List.take_left']
    rfl
  refine ⟨result, hrun, (hmem p).mpr (Or.inr ⟨hlen, hp, ⟨path.take p.length, ?_⟩, hpre p hp⟩),
    (hmem w).mpr (Or.inr ⟨hlenw, hw, ⟨path, hpath⟩, hpre w hw⟩)⟩
  have h1 := traces_take g hpath p.length
  rw [← hptake] at h1
  exact h1

theorem findAllWords_compound_match_witness :
    (∀ w, (wideGame (wordsLexicon wideWords)).dictionary.contains w = true →
        ∀ p, p ≠ [] → p <+: w →
          (wideGame (wordsLexicon wideWords)).dictionary.containsPrefix p = true) ∧
      (wideGame (wordsLexicon wideWords)).boardSize *
        (wideGame (wordsLexicon wideWords)).boardSize < 10 ∧
      (wideGame (wordsLexicon wideWords)).dictionary.contains ['C', 'A', 'T', 'S', 'X'] = true ∧
      findWordOnBoard (wideGame (wordsLexicon wideWords)) 10 ['C', 'A', 'T', 'S', 'X'] =
        some true ∧
      ['C', 'A', 'T', 'S'] <+: ['C', 'A', 'T', 'S', 'X'] ∧
      ['C', 'A', 'T', 'S'].length ≥ MIN_WORD_LENGTH ∧
      (wideGame (wordsLexicon wideWords)).dictionary.contains ['C', 'A', 'T', 'S'] = true ∧
      ∃ result, findAllWords (wideGame (wordsLexicon wideWords)) 10 ∅ = some result ∧
        ['C', 'A', 'T', 'S'] ∈ result ∧ ['C', 'A', 'T', 'S', 'X'] ∈ result :=
  ⟨fun w hw p _ hp => wordsLexicon_closed wideWords w hw p hp, by decide, by decide, by decide,
    ⟨['X'], rfl⟩, by decide, by decide,
    findAllWords_compound_match (wideGame (wordsLexicon wideWords))
      (fun w hw p _ hp => wordsLexicon_closed wideWords w hw p hp)
      ['C', 'A', 'T', 'S', 'X'] ['C', 'A', 'T', 'S'] 10 (by decide) (by decide) (by decide)
      ⟨['X'], rfl⟩ (by decide) (by decide)⟩

/-- C20: for every board, every word and every recursion budget above the
length of the word, `findWordOnBoard` gives the same result for the word and
for the word read backwards. -/
theorem findWordOnBoard_reverse (g : BoggleGame) (word : List Char) (fuel : Nat)
    (hfuel : word.length < fuel) :
    findWordOnBoard g fuel word.reverse = findWordOnBoard g fuel word ∧
      ∃ b, findWordOnBoard g fuel word = some b := by
  obtain ⟨b, hb, hiff⟩ := findWordOnBoard_spec g fuel word (Or.inl hfuel)
  obtain ⟨b', hb', hiff'⟩ := findWordOnBoard_spec g fuel word.reverse
    (Or.inl (by rw [List.length_reverse]; exact hfuel))
  refine ⟨?_, b, hb⟩
  rw [hb, hb', Option.some.injEq, Bool.eq_iff_iff, hiff, hiff']
  constructor
  · rintro ⟨hne, path, hpath⟩
    refine ⟨fun h => hne (by rw [h]; rfl), path.reverse, ?_⟩
    have h1 := traces_reverse g hpath
    rw [List.reverse_reverse] at h1
    exact h1
  · rintro ⟨hne, path, hpath⟩
    exact ⟨fun h => hne (List.reverse_eq_nil_iff.mp h), path.reverse, traces_reverse g hpath⟩

theorem findWordOnBoard_reverse_witness :
    ['C', 'A', 'T'].length < 4 ∧
      findWordOnBoard (catGame (wordsLexicon catWords)) 4 ['C', 'A', 'T'].reverse =
        findWordOnBoard (catGame (wordsLexicon catWords)) 4 ['C', 'A', 'T'] ∧
      ∃ b, findWordOnBoard (catGame (wordsLexicon catWords)) 4 ['C', 'A', 'T'] = some b :=
  ⟨by decide, findWordOnBoard_reverse (catGame (wordsLexicon catWords)) ['C', 'A', 'T'] 4
    (by decide)⟩

/-! ## Termination -/

theorem loopUntilFound_returns {α σ : Type} (body : α → σ → Option (Bool × σ)) (s : σ) :
    ∀ (xs : List α) (found : Bool), (∀ x ∈ xs, ∃ b, body x s = some (b, s)) →
      ∃ b, loopUntilFound body xs found s = some (b, s)
  | [], found, _ => ⟨found, rfl⟩
  | x :: xs, found, h => by
    cases found with
    | true => exact ⟨true, by simp [loopUntilFound]⟩
    | false =>
      obtain ⟨b, hb⟩ := h x (List.mem_cons_self x xs)
      obtain ⟨b', hb'⟩ :=
        loopUntilFound_returns body s xs b (fun y hy => h y (List.mem_cons_of_mem x hy))
      exact ⟨b', by simp [loopUntilFound, hb, hb']⟩

/-- With a budget above the number of unmarked grid cells `findWordFromCell`
returns, whatever the word and the index, and leaves the marker as it was. -/
theorem findWordFromCell_returns (g : BoggleGame) :
    ∀ (fuel : Nat) (word : List Char) (index : Nat) (row col : Int) (v : Visited),
      Square g.boardSize v → (unmarked g v).card < fuel →
      ∃ b, findWordFromCell g fuel word index row col v = some (b, v)
  | 0, _, _, _, _, _, _, h => absurd h (Nat.not_lt_zero _)
  | fuel + 1, word, index, row, col, v, hv, hfuel => by
    rw [findWordFromCell]
    by_cases h1 : index = word.length
    · exact ⟨true, by rw [if_pos h1]⟩
    · rw [if_neg h1]
      by_cases h2 : row < 0 ∨ row ≥ g.boardSize ∨ col < 0 ∨ col ≥ g.boardSize ∨
          visitedAt v row col = true ∨ word[index]? ≠ some (boardAt g row col)
      · exact ⟨false, by rw [if_pos h2]⟩
      · rw [if_neg h2]
        push_neg at h2
        obtain ⟨hr0, hr1, hc0, hc1, hvis, -⟩ := h2
        have hvis' : visitedAt v row col = false := by simpa using hvis
        have hin : InGrid g (row, col) := ⟨hr0, hr1, hc0, hc1⟩
        have hv1 := square_setVisited hv row col true
        have hcard := card_unmarked_setVisited g hv hin hvis'
        obtain ⟨b, hb⟩ := loopUntilFound_returns
          (fun i v =>
            loopUntilFound
              (fun j v =>
                if i ≠ 0 ∨ j ≠ 0 then
                  findWordFromCell g fuel word (index + 1) (row + i) (col + j) v
                else some (false, v))
              deltas false v)
          (setVisited v row col true) deltas false
          (fun i _ => loopUntilFound_returns _ _ deltas false (fun j _ => by
            by_cases hij : i ≠ 0 ∨ j ≠ 0
            · simp only [if_pos hij]
              exact findWordFromCell_returns g fuel word (index + 1) (row + i) (col + j)
                (setVisited v row col true) hv1 (by simp only at hcard; omega)
            · exact ⟨false, by simp only [if_neg hij]⟩))
        exact ⟨b, by simp only [hb, setVisited_restore v row col hvis']⟩

/-- C17: for every board, word, dictionary and `N × N` marker, with a budget
of calls above the number of unmarked grid cells `findWordFromCell` and
`findAllWordsHelper` return. A call that passes its entry check marks a cell
that was unmarked and so leaves fewer unmarked cells to the calls nested in
it; there are at most `N * N` unmarked cells, at most 400 when `N ≤ 20`, so
below the first call at most `N * N` levels of calls are nested. -/
theorem search_terminates (g : BoggleGame) (visited : Visited)
    (hv : Square g.boardSize visited) (fuel : Nat)
    (hfuel : (unmarked g visited).card < fuel) :
    (∀ word index row col,
        ∃ b, findWordFromCell g fuel word index row col visited = some (b, visited)) ∧
      (∀ row col cur all, ∃ all',
        findAllWordsHelper g fuel row col ⟨cur, visited, all⟩ = some ⟨cur, visited, all'⟩) ∧
      (∀ row col, InGrid g (row, col) → visitedAt visited row col = false →
        (unmarked g (setVisited visited row col true)).card < (unmarked g visited).card) ∧
      (unmarked g visited).card ≤ g.boardSize * g.boardSize ∧
      (g.boardSize ≤ MAX_BOARD_SIZE → g.boardSize * g.boardSize ≤ 400) := by
  refine ⟨fun word index row col =>
      findWordFromCell_returns g fuel word index row col visited hv hfuel, ?_, ?_,
    card_unmarked_le g visited, ?_⟩
  · intro row col cur all
    obtain ⟨all', hrun, -⟩ := findAllWordsHelper_spec g fuel row col ⟨cur, visited, all⟩ hv hfuel
    exact ⟨all', hrun⟩
  · intro row col hin hvis
    have h := card_unmarked_setVisited g hv (p := (row, col)) hin hvis
    simp only at h
    exact h
  · intro hN
    simp only [MAX_BOARD_SIZE] at hN
    calc g.boardSize * g.boardSize ≤ 20 * 20 := Nat.mul_le_mul hN hN
      _ = 400 := rfl

theorem search_terminates_witness :
    Square (catGame greedyLexicon).boardSize [[false, false], [false, false]] ∧
      (unmarked (catGame greedyLexicon) [[false, false], [false, false]]).card < 5 ∧
      (∀ word index row col,
        ∃ b, findWordFromCell (catGame greedyLexicon) 5 word index row col
          [[false, false], [false, false]] = some (b, [[false, false], [false, false]])) ∧
      (∀ row col cur all, ∃ all',
        findAllWordsHelper (catGame greedyLexicon) 5 row col
            ⟨cur, [[false, false], [false, false]], all⟩ =
          some ⟨cur, [[false, false], [false, false]], all'⟩) ∧
      (∀ row col, InGrid (catGame greedyLexicon) (row, col) →
        visitedAt [[false, false], [false, false]] row col = false →
        (unmarked (catGame greedyLexicon)
            (setVisited [[false, false], [false, false]] row col true)).card <
          (unmarked (catGame greedyLexicon) [[false, false], [false, false]]).card) ∧
      (unmarked (catGame greedyLexicon) [[false, false], [false, false]]).card ≤
        (catGame greedyLexicon).boardSize * (catGame greedyLexicon).boardSize ∧
      ((catGame greedyLexicon).boardSize ≤ MAX_BOARD_SIZE →
        (catGame greedyLexicon).boardSize * (catGame greedyLexicon).boardSize ≤ 400) :=
  ⟨by simp [Square, catGame],
    lt_of_le_of_lt (card_unmarked_le (catGame greedyLexicon) _) (by decide),
    search_terminates (catGame greedyLexicon) [[false, false], [false, false]]
      (by simp [Square, catGame]) 5
      (lt_of_le_of_lt (card_unmarked_le (catGame greedyLexicon) _) (by decide))⟩

/-! ## What `readBoard` computes -/

theorem shape_resizeBoard_nil (n : Nat) : Shape n (resizeBoard [] n) := by
  refine ⟨by simp [resizeBoard], ?_⟩
  intro r hr
  simp only [resizeBoard, List.take_nil, List.nil_append, List.length_nil, Nat.sub_zero,
    List.mem_replicate] at hr
  rw [hr.2, List.length_replicate]

theorem shape_setBoard {n : Nat} {board : List (List Char)} (h : Shape n board)
    (row col : Int) (c : Char) : Shape n (setBoard board row col c) := by
  refine ⟨by simp [setBoard, h.1], ?_⟩
  intro r hr
  rw [setBoard] at hr
  by_cases hi : row.toNat < board.length
  · rcases List.mem_or_eq_of_mem_set hr with h1 | h1
    · exact h.2 r h1
    · rw [h1, List.length_set, List.getD_eq_getElem?_getD, List.getElem?_eq_getElem hi,
        Option.getD_some]
      exact h.2 _ (List.getElem_mem hi)
  · rw [List.set_eq_of_length_le (not_lt.mp hi)] at hr
    exact h.2 r hr

theorem charAt_setBoard_self {n : Nat} {board : List (List Char)} (h : Shape n board)
    {row col : Int} (hr : row.toNat < n) (hc : col.toNat < n) (c : Char) :
    charAt (setBoard board row col c) row col = c := by
  have hi : row.toNat < board.length := by rw [h.1]; exact hr
  have hj : col.toNat < (board[row.toNat]).length := by
    rw [h.2 _ (List.getElem_mem hi)]; exact hc
  simp [charAt, setBoard, hi, hj]

theorem charAt_setBoard_other (board : List (List Char)) {row col row' col' : Int}
    (hne : row'.toNat ≠ row.toNat ∨ col'.toNat ≠ col.toNat) (c : Char) :
    charAt (setBoard board row col c) row' col' = charAt board row' col' := by
  simp only [charAt, setBoard, List.getD_eq_getElem?_getD]
  by_cases hrow : row'.toNat = row.toNat
  · have hcol : col.toNat ≠ col'.toNat := by
      rcases hne with h1 | h1
      · exact absurd hrow h1
      · exact fun h2 => h1 h2.symm
    rw [hrow]
    by_cases hi : row.toNat < board.length
    · simp [hi, List.getElem?_set_ne hcol]
    · simp [List.set_eq_of_length_le (not_lt.mp hi)]
  · rw [List.getElem?_set_ne (fun h1 => hrow h1.symm)]

theorem cellsGood_zero (cells : List Char) : CellsGood cells 0 :=
  ⟨Nat.zero_le _, by simp⟩

theorem cellsGood_cons (c : Char) (rest : List Char) (k : Nat) :
    CellsGood (c :: rest) (k + 1) ↔ c.isAlpha = true ∧ CellsGood rest k := by
  simp only [CellsGood, List.length_cons, List.take_succ_cons, List.mem_cons, forall_eq_or_imp]
  constructor
  · rintro ⟨h1, h2, h3⟩
    exact ⟨h2, by omega, h3⟩
  · rintro ⟨h1, h2, h3⟩
    exact ⟨by omega, h1, h3⟩

theorem cellsGood_add (cells : List Char) (a b : Nat) :
    CellsGood cells (a + b) ↔ CellsGood cells a ∧ CellsGood (cells.drop a) b := by
  induction a generalizing cells with
  | zero => simp [cellsGood_zero]
  | succ a ih =>
    cases cells with
    | nil =>
      simp only [CellsGood, List.length_nil, List.drop_nil, List.take_nil, List.not_mem_nil,
        false_implies, implies_true, and_true]
      omega
    | cons c rest =>
      rw [show a + 1 + b = (a + b) + 1 by omega, cellsGood_cons, cellsGood_cons, ih,
        List.drop_succ_cons, and_assoc]

/-- One row of `readBoard`: the loop over the columns `a, ..., a + len - 1` of
the row `i`. -/
theorem readRow_spec (n i : Nat) (hi : i < n) :
    ∀ (len a : Nat) (board : List (List Char)) (rest : List Char), Shape n board →
      a + len ≤ n →
      (CellsGood rest len →
        ∃ board', forEachExcept (fun j s => readCell (i : Int) j s)
            ((List.range' a len).map Int.ofNat) (board, rest) = .ok (board', rest.drop len) ∧
          Shape n board' ∧
          (∀ k, k < len → ∃ c, rest[k]? = some c ∧
            charAt board' (i : Int) ((a + k : Nat) : Int) = c.toUpper) ∧
          (∀ r c : Nat, (r ≠ i ∨ c < a ∨ a + len ≤ c) →
            charAt board' (r : Int) (c : Int) = charAt board (r : Int) (c : Int))) ∧
      (¬CellsGood rest len →
        forEachExcept (fun j s => readCell (i : Int) j s)
          ((List.range' a len).map Int.ofNat) (board, rest) = .error cellError)
  | 0, a, board, rest, hs, _ => by
    refine ⟨fun _ => ⟨board, rfl, hs, fun k hk => absurd hk (Nat.not_lt_zero k),
      fun _ _ _ => rfl⟩, fun h => absurd (cellsGood_zero rest) h⟩
  | len + 1, a, board, rest, hs, hlen => by
    cases rest with
    | nil =>
      refine ⟨fun h => ?_, fun _ => rfl⟩
      have h1 := h.1
      simp at h1
    | cons c rest =>
      rw [cellsGood_cons]
      by_cases hc : c.isAlpha = false
      · refine ⟨fun h => ?_, fun _ => ?_⟩
        · rw [hc] at h
          exact absurd h.1 Bool.false_ne_true
        · simp only [List.range'_succ, List.map_cons, forEachExcept, readCell, hc, if_true]
      · have hc' : c.isAlpha = true := by simpa using hc
        have hs1 := shape_setBoard hs (i : Int) (Int.ofNat a) c.toUpper
        obtain ⟨ihgood, ihbad⟩ := readRow_spec n i hi len (a + 1)
          (setBoard board (i : Int) (Int.ofNat a) c.toUpper) rest hs1 (by omega)
        have hstep : forEachExcept (fun j s => readCell (i : Int) j s)
            ((List.range' a (len + 1)).map Int.ofNat) (board, c :: rest) =
            forEachExcept (fun j s => readCell (i : Int) j s)
              ((List.range' (a + 1) len).map Int.ofNat)
              (setBoard board (i : Int) (Int.ofNat a) c.toUpper, rest) := by
          simp only [List.range'_succ, List.map_cons, forEachExcept, readCell, hc, if_false]
          rfl
        rw [hstep]
        refine ⟨fun h => ?_, fun h => ihbad (fun h1 => h ⟨hc', h1⟩)⟩
        obtain ⟨board', hrun, hs', hcells, hother⟩ := ihgood h.2
        refine ⟨board', by rw [hrun]; rfl, hs', ?_, ?_⟩
        · intro k hk
          cases k with
          | zero =>
            refine ⟨c, by simp, ?_⟩
            rw [Nat.add_zero, hother i a (Or.inr (Or.inl (by omega)))]
            exact charAt_setBoard_self hs (by simpa using hi) (by simp; omega) _
          | succ k =>
            obtain ⟨c', hc1, hc2⟩ := hcells k (by omega)
            refine ⟨c', by simpa using hc1, ?_⟩
            rw [show a + (k + 1) = a + 1 + k by omega]
            exact hc2
        · intro r col hcond
          rw [hother r col (by omega)]
          apply charAt_setBoard_other
          simp only [Int.toNat_ofNat, Int.ofNat_eq_coe]
          omega

/-- The rows `a, ..., a + len - 1` of `readBoard`. -/
theorem readRows_spec (n : Nat) :
    ∀ (len a : Nat) (board : List (List Char)) (rest : List Char), Shape n board →
      a + len ≤ n →
      (CellsGood rest (len * n) →
        ∃ board', forEachExcept
            (fun i s => forEachExcept (fun j s => readCell i j s)
              ((List.range n).map Int.ofNat) s)
            ((List.range' a len).map Int.ofNat) (board, rest) =
              .ok (board', rest.drop (len * n)) ∧
          Shape n board' ∧
          (∀ r c, r < len → c < n → ∃ ch, rest[r * n + c]? = some ch ∧
            charAt board' ((a + r : Nat) : Int) (c : Int) = ch.toUpper) ∧
          (∀ r c : Nat, (r < a ∨ a + len ≤ r) →
            charAt board' (r : Int) (c : Int) = charAt board (r : Int) (c : Int))) ∧
      (¬CellsGood rest (len * n) →
        forEachExcept
          (fun i s => forEachExcept (fun j s => readCell i j s)
            ((List.range n).map Int.ofNat) s)
          ((List.range' a len).map Int.ofNat) (board, rest) = .error cellError)
  | 0, a, board, rest, hs, _ => by
    rw [Nat.zero_mul]
    exact ⟨fun _ => ⟨board, rfl, hs, fun r c hr _ => absurd hr (Nat.not_lt_zero r),
      fun _ _ _ => rfl⟩, fun h => absurd (cellsGood_zero rest) h⟩
  | len + 1, a, board, rest, hs, hlen => by
    have hsplit : CellsGood rest ((len + 1) * n) ↔
        CellsGood rest n ∧ CellsGood (rest.drop n) (len * n) := by
      rw [show (len + 1) * n = n + len * n by rw [Nat.succ_mul]; omega, cellsGood_add]
    obtain ⟨rowgood, rowbad⟩ := readRow_spec n a (by omega) n 0 board rest hs (by omega)
    rw [← List.range_eq_range'] at rowgood rowbad
    rw [hsplit]
    by_cases hrow : CellsGood rest n
    · obtain ⟨board1, hrun1, hs1, hcells1, hother1⟩ := rowgood hrow
      obtain ⟨ihgood, ihbad⟩ := readRows_spec n len (a + 1) board1 (rest.drop n) hs1 (by omega)
      have hstep : forEachExcept
          (fun i s => forEachExcept (fun j s => readCell i j s)
            ((List.range n).map Int.ofNat) s)
          ((List.range' a (len + 1)).map Int.ofNat) (board, rest) =
          forEachExcept
            (fun i s => forEachExcept (fun j s => readCell i j s)
              ((List.range n).map Int.ofNat) s)
            ((List.range' (a + 1) len).map Int.ofNat) (board1, rest.drop n) := by
        simp only [List.range'_succ, List.map_cons, forEachExcept, Int.ofNat_eq_coe]
        rw [hrun1]
      rw [hstep]
      refine ⟨fun h => ?_, fun h => ihbad (fun h1 => h ⟨hrow, h1⟩)⟩
      obtain ⟨board', hrun, hs', hcells, hother⟩ := ihgood h.2
      refine ⟨board', ?_, hs', ?_, ?_⟩
      · rw [hrun, List.drop_drop]
        congr 3
        rw [Nat.succ_mul]
        omega
      · intro r c hr hc
        cases r with
        | zero =>
          obtain ⟨ch, hch1, hch2⟩ := hcells1 c hc
          refine ⟨ch, by simpa using hch1, ?_⟩
          rw [Nat.add_zero, hother a c (Or.inl (by omega))]
          simpa using hch2
        | succ r =>
          obtain ⟨ch, hch1, hch2⟩ := hcells r c (by omega) hc
          refine ⟨ch, ?_, ?_⟩
          · rw [List.getElem?_drop] at hch1
            rw [← hch1]
            congr 1
            rw [Nat.succ_mul]
            omega
          · rw [show a + (r + 1) = a + 1 + r by omega]
            exact hch2
      · intro r c hcond
        rw [hother r c (by omega)]
        exact hother1 r c (Or.inl (by omega))
    · have hstep : forEachExcept
          (fun i s => forEachExcept (fun j s => readCell i j s)
            ((List.range n).map Int.ofNat) s)
          ((List.range' a (len + 1)).map Int.ofNat) (board, rest) = .error cellError := by
        simp only [List.range'_succ, List.map_cons, forEachExcept, Int.ofNat_eq_coe]
        have h1 := rowbad hrow
        rw [h1]
      exact ⟨fun h => absurd h.1 hrow, fun _ => hstep⟩

theorem isUpper_iff (c : Char) : c.isUpper = true ↔ 65 ≤ c.toNat ∧ c.toNat ≤ 90 := by
  simp only [Char.isUpper, Bool.and_eq_true, decide_eq_true_eq, Char.toNat, ge_iff_le,
    UInt32.le_def, Fin.le_def]
  rfl

theorem isLower_iff (c : Char) : c.isLower = true ↔ 97 ≤ c.toNat ∧ c.toNat ≤ 122 := by
  simp only [Char.isLower, Bool.and_eq_true, decide_eq_true_eq, Char.toNat, ge_iff_le,
    UInt32.le_def, Fin.le_def]
  rfl

/-- The upper-case form of a letter is one of `A` to `Z`. -/
theorem isUpper_toUpper (c : Char) (h : c.isAlpha = true) : c.toUpper.isUpper = true := by
  rw [Char.isAlpha, Bool.or_eq_true, isUpper_iff, isLower_iff] at h
  rw [isUpper_iff]
  by_cases hl : c.toNat ≥ 97 ∧ c.toNat ≤ 122
  · have h1 : c.toUpper = Char.ofNat (c.toNat - 32) := by
      simp only [Char.toUpper, hl, and_self, if_true]
    rw [h1, toNat_ofNat_of_lt _ (by omega)]
    omega
  · have h1 : c.toUpper = c := by
      simp only [Char.toUpper, hl, if_false]
    rw [h1]
    omega

/-- The first `k` characters are not all there and letters exactly when one
of them is missing or is not a letter. -/
theorem not_cellsGood_iff (cells : List Char) (k : Nat) :
    ¬CellsGood cells k ↔
      ∃ i, i < k ∧ (cells[i]? = none ∨ ∃ c, cells[i]? = some c ∧ c.isAlpha = false) := by
  constructor
  · intro h
    by_cases hlen : k ≤ cells.length
    · have h1 : ¬∀ c ∈ cells.take k, c.isAlpha = true := fun h2 => h ⟨hlen, h2⟩
      push_neg at h1
      obtain ⟨c, hc, hca⟩ := h1
      obtain ⟨i, hi⟩ := List.mem_iff_getElem?.mp hc
      rw [List.getElem?_take] at hi
      split_ifs at hi with hik
      · exact ⟨i, hik, Or.inr ⟨c, hi, by simpa using hca⟩⟩
    · exact ⟨cells.length, by omega, Or.inl (List.getElem?_eq_none (le_refl _))⟩
  · rintro ⟨i, hik, h | ⟨c, hc, hca⟩⟩ hgood
    · rw [List.getElem?_eq_none_iff] at h
      have h1 := hgood.1
      omega
    · have hmem : c ∈ cells.take k := by
        rw [List.mem_iff_getElem?]
        exact ⟨i, by rw [List.getElem?_take, if_pos hik]; exact hc⟩
      rw [hgood.2 c hmem] at hca
      exact Bool.noConfusion hca

/-- What `readBoard` does on a freshly constructed game once the size is
accepted. -/
theorem readBoard_spec (d : Lexicon) (input : Input) (n : Int) (hsize : input.size = some n)
    (h0 : 0 < n) (h1 : n ≤ MAX_BOARD_SIZE) :
    (CellsGood input.cells (n.toNat * n.toNat) →
      ∃ board', readBoard (newGame d) input =
          .ok { newGame d with boardSize := n.toNat, board := board' } ∧
        Shape n.toNat board' ∧
        ∀ r c, r < n.toNat → c < n.toNat → ∃ ch, input.cells[r * n.toNat + c]? = some ch ∧
          charAt board' (r : Int) (c : Int) = ch.toUpper) ∧
      (¬CellsGood input.cells (n.toNat * n.toNat) →
        readBoard (newGame d) input = .error cellError) := by
  have hguard : ¬(n ≤ 0 ∨ n > (MAX_BOARD_SIZE : Int)) := by omega
  obtain ⟨hgood, hbad⟩ := readRows_spec n.toNat n.toNat 0 (resizeBoard [] n.toNat) input.cells
    (shape_resizeBoard_nil n.toNat) (by omega)
  rw [← List.range_eq_range'] at hgood hbad
  constructor
  · intro h
    obtain ⟨board', hrun, hs, hcells, -⟩ := hgood h
    refine ⟨board', ?_, hs, ?_⟩
    · simp only [readBoard, hsize, if_neg hguard, newGame]
      rw [hrun]
    · intro r c hr hc
      obtain ⟨ch, hch1, hch2⟩ := hcells r c hr hc
      exact ⟨ch, hch1, by simpa using hch2⟩
  · intro h
    simp only [readBoard, hsize, if_neg hguard, newGame]
    rw [hbad h]

theorem sizeError_ne_cellError : sizeError ≠ cellError := by decide

/-- C12: on a freshly constructed game `readBoard` fails with the message
"Invalid board size. Must be between 1 and 20" exactly when no integer size can
be read or the size is `≤ 0` or `> MAX_BOARD_SIZE` (20). For a size `n` that
is accepted it fails with the message "Invalid input. Board must contain only
alphabetic characters." exactly when one of the first `n * n` cell characters
is missing or is not a letter, and it succeeds exactly when none is. The two
messages differ. -/
theorem readBoard_failures (d : Lexicon) (input : Input) :
    (readBoard (newGame d) input = .error sizeError ↔
        input.size = none ∨ ∃ n, input.size = some n ∧ (n ≤ 0 ∨ n > MAX_BOARD_SIZE)) ∧
      (∀ n, input.size = some n → 0 < n → n ≤ MAX_BOARD_SIZE →
        (readBoard (newGame d) input = .error cellError ↔
          ∃ k, k < n.toNat * n.toNat ∧
            (input.cells[k]? = none ∨ ∃ c, input.cells[k]? = some c ∧ c.isAlpha = false)) ∧
        ((∃ g', readBoard (newGame d) input = .ok g') ↔
          ¬∃ k, k < n.toNat * n.toNat ∧
            (input.cells[k]? = none ∨ ∃ c, input.cells[k]? = some c ∧ c.isAlpha = false))) ∧
      sizeError ≠ cellError ∧
      sizeError = "Invalid board size. Must be between 1 and 20" ∧
      cellError = "Invalid input. Board must contain only alphabetic characters." ∧
      MAX_BOARD_SIZE = 20 := by
  have hcases : ∀ n, input.size = some n → 0 < n → n ≤ MAX_BOARD_SIZE →
      (CellsGood input.cells (n.toNat * n.toNat) ∧
        ∃ g', readBoard (newGame d) input = .ok g') ∨
      (¬CellsGood input.cells (n.toNat * n.toNat) ∧
        readBoard (newGame d) input = .error cellError) := by
    intro n hn h0 h1
    obtain ⟨hgood, hbad⟩ := readBoard_spec d input n hn h0 h1
    by_cases hc : CellsGood input.cells (n.toNat * n.toNat)
    · obtain ⟨board', hrun, -⟩ := hgood hc
      exact Or.inl ⟨hc, _, hrun⟩
    · exact Or.inr ⟨hc, hbad hc⟩
  refine ⟨⟨?_, ?_⟩, ?_, sizeError_ne_cellError, by decide, rfl, rfl⟩
  · intro h
    cases hn : input.size with
    | none => exact Or.inl rfl
    | some n =>
      right
      refine ⟨n, rfl, ?_⟩
      by_contra hcon
      rcases hcases n hn (by omega) (by omega) with ⟨-, g', hg'⟩ | ⟨-, herr⟩
      · rw [hg'] at h
        exact Except.noConfusion h
      · rw [herr, Except.error.injEq] at h
        exact sizeError_ne_cellError h.symm
  · rintro (h | ⟨n, hn, hbad⟩)
    · simp only [readBoard, h]
    · simp only [readBoard, hn, if_pos hbad]
  · intro n hn h0 h1
    rw [← not_cellsGood_iff, not_not]
    rcases hcases n hn h0 h1 with ⟨hc, g', hg'⟩ | ⟨hc, herr⟩
    · refine ⟨⟨fun h => ?_, fun h => absurd hc h⟩, ⟨fun _ => hc, fun _ => ⟨g', hg'⟩⟩⟩
      rw [hg'] at h
      exact Except.noConfusion h
    · refine ⟨⟨fun _ => hc, fun _ => herr⟩, ⟨fun h => ?_, fun h => absurd h hc⟩⟩
      obtain ⟨g', hg'⟩ := h
      rw [herr] at hg'
      exact Except.noConfusion hg'

/-- C13: when `readBoard` succeeds on a freshly constructed game, the size read
is some `N` with `1 ≤ N ≤ 20`, `boardSize` is `N`, the board has `N` rows of
`N` cells each, the cell `(i, j)` holds the upper-case form of the character
number `i * N + j` of the cell input, and every cell is one of `A` to `Z`. -/
theorem readBoard_success (d : Lexicon) (input : Input) (g' : BoggleGame)
    (h : readBoard (newGame d) input = .ok g') :
    ∃ n : Nat, input.size = some (n : Int) ∧ g'.boardSize = n ∧ 1 ≤ n ∧ n ≤ 20 ∧
      g'.board.length = n ∧ (∀ r ∈ g'.board, r.length = n) ∧
      (∀ i j, i < n → j < n → ∃ c, input.cells[i * n + j]? = some c ∧
        boardAt g' (i : Int) (j : Int) = c.toUpper) ∧
      (∀ r ∈ g'.board, ∀ c ∈ r, c.isUpper = true) ∧
      g'.dictionary = d := by
  cases hn : input.size with
  | none =>
    simp only [readBoard, hn] at h
    exact Except.noConfusion h
  | some n =>
    by_cases hbad : n ≤ 0 ∨ n > (MAX_BOARD_SIZE : Int)
    · simp only [readBoard, hn, if_pos hbad] at h
      exact Except.noConfusion h
    · have h0 : 0 < n := by omega
      have h1 : n ≤ (MAX_BOARD_SIZE : Int) := by omega
      obtain ⟨hgood, hbad'⟩ := readBoard_spec d input n hn h0 h1
      by_cases hc : CellsGood input.cells (n.toNat * n.toNat)
      · obtain ⟨board', hrun, hs, hcells⟩ := hgood hc
        rw [hrun, Except.ok.injEq] at h
        subst h
        have h20 : n.toNat ≤ 20 := by
          simp only [MAX_BOARD_SIZE] at h1
          omega
        refine ⟨n.toNat, by rw [Int.toNat_of_nonneg (le_of_lt h0)], rfl, by omega, h20, hs.1,
          hs.2, hcells, ?_, rfl⟩
        intro r hr c hcr
        obtain ⟨i, hi, hri⟩ := List.getElem_of_mem hr
        obtain ⟨j, hj, hcj⟩ := List.getElem_of_mem hcr
        have hi' : i < n.toNat := by rw [← hs.1]; exact hi
        have hj' : j < n.toNat := by rw [← hs.2 r hr]; exact hj
        obtain ⟨ch, hch1, hch2⟩ := hcells i j hi' hj'
        have hread : charAt board' (i : Int) (j : Int) = c := by
          subst hri
          simp [charAt, hi, hj, hcj]
        have hidx : i * n.toNat + j < n.toNat * n.toNat := by
          calc i * n.toNat + j < i * n.toNat + n.toNat := by omega
            _ = (i + 1) * n.toNat := by rw [Nat.succ_mul]
            _ ≤ n.toNat * n.toNat := Nat.mul_le_mul_right _ hi'
        have hmem : ch ∈ input.cells.take (n.toNat * n.toNat) := by
          rw [List.mem_iff_getElem?]
          exact ⟨i * n.toNat + j, by rw [List.getElem?_take, if_pos hidx]; exact hch1⟩
        rw [← hread, hch2]
        exact isUpper_toUpper ch (hc.2 ch hmem)
      · rw [hbad' hc] at h
        exact Except.noConfusion h

theorem readBoard_success_witness :
    readBoard (newGame greedyLexicon) ⟨some 2, ['c', 'a', 'T', 's']⟩ =
        .ok (catGame greedyLexicon) ∧
      ∃ n : Nat, (Input.mk (some 2) ['c', 'a', 'T', 's']).size = some (n : Int) ∧
        (catGame greedyLexicon).boardSize = n ∧ 1 ≤ n ∧ n ≤ 20 ∧
        (catGame greedyLexicon).board.length = n ∧
        (∀ r ∈ (catGame greedyLexicon).board, r.length = n) ∧
        (∀ i j, i < n → j < n →
          ∃ c, (Input.mk (some 2) ['c', 'a', 'T', 's']).cells[i * n + j]? = some c ∧
            boardAt (catGame greedyLexicon) (i : Int) (j : Int) = c.toUpper) ∧
        (∀ r ∈ (catGame greedyLexicon).board, ∀ c ∈ r, c.isUpper = true) ∧
        (catGame greedyLexicon).dictionary = greedyLexicon :=
  ⟨rfl, readBoard_success greedyLexicon ⟨some 2, ['c', 'a', 'T', 's']⟩ (catGame greedyLexicon)
    rfl⟩

/-! ## The checked runs meet no access out of range -/

theorem readChecked_eq {α : Type} {n : Nat} {m : List (List α)} (hlen : m.length = n)
    (hrows : ∀ r ∈ m, r.length = n) {row col : Int} (hr0 : 0 ≤ row) (hr1 : row < n)
    (hc0 : 0 ≤ col) (hc1 : col < n) (d : α) :
    readChecked m row col = .ok ((m.getD row.toNat []).getD col.toNat d) := by
  have hi : row.toNat < m.length := by rw [hlen]; omega
  have hj : col.toNat < (m[row.toNat]).length := by
    rw [hrows _ (List.getElem_mem hi)]; omega
  have hneg : ¬(row < 0 ∨ col < 0) := by omega
  simp [readChecked, hneg, hi, hj]

theorem writeChecked_eq {α : Type} {n : Nat} {m : List (List α)} (hlen : m.length = n)
    (hrows : ∀ r ∈ m, r.length = n) {row col : Int} (hr0 : 0 ≤ row) (hr1 : row < n)
    (hc0 : 0 ≤ col) (hc1 : col < n) (x : α) :
    writeChecked m row col x = .ok (m.set row.toNat ((m.getD row.toNat []).set col.toNat x)) := by
  have hi : row.toNat < m.length := by rw [hlen]; omega
  have hj : col.toNat < (m[row.toNat]).length := by
    rw [hrows _ (List.getElem_mem hi)]; omega
  have hneg : ¬(row < 0 ∨ col < 0) := by omega
  simp [writeChecked, hneg, hi, hj]

theorem loopUntilFound_liftRun {α σ : Type} (bodyC : α → σ → Except Fault (Bool × σ))
    (bodyT : α → σ → Option (Bool × σ)) (s : σ) :
    ∀ (xs : List α) (found : Bool),
      (∀ x ∈ xs, bodyC x s = liftRun (bodyT x s) ∧
        (bodyT x s = none ∨ ∃ b, bodyT x s = some (b, s))) →
      loopUntilFoundExcept bodyC xs found s = liftRun (loopUntilFound bodyT xs found s) ∧
        (loopUntilFound bodyT xs found s = none ∨
          ∃ b, loopUntilFound bodyT xs found s = some (b, s))
  | [], found, _ => ⟨rfl, Or.inr ⟨found, rfl⟩⟩
  | x :: xs, found, h => by
    cases found with
    | true => exact ⟨by simp [loopUntilFoundExcept, loopUntilFound, liftRun],
        Or.inr ⟨true, by simp [loopUntilFound]⟩⟩
    | false =>
      obtain ⟨hx, hframe⟩ := h x (List.mem_cons_self x xs)
      rcases hframe with hnone | ⟨b, hb⟩
      · rw [hnone] at hx
        exact ⟨by simp [loopUntilFoundExcept, loopUntilFound, hx, hnone, liftRun],
          Or.inl (by simp [loopUntilFound, hnone])⟩
      · rw [hb] at hx
        obtain ⟨h1, h2⟩ := loopUntilFound_liftRun bodyC bodyT s xs b
          (fun y hy => h y (List.mem_cons_of_mem x hy))
        refine ⟨?_, ?_⟩
        · simp only [loopUntilFoundExcept, loopUntilFound, hx, hb, liftRun, Bool.false_eq_true,
            if_false]
          exact h1
        · simp only [loopUntilFound, hb, Bool.false_eq_true, if_false]
          exact h2

/-- On a square board, from a square marker and an index inside the word or
at its end, the checked `findWordFromCell` is the unchecked one: it meets no
access out of range. The unchecked one leaves the marker as it was. -/
theorem findWordFromCellChecked_eq (g : BoggleGame) (hb : BoardSquare g) :
    ∀ (fuel : Nat) (word : List Char) (index : Nat) (row col : Int) (v : Visited),
      Square g.boardSize v → index ≤ word.length →
      findWordFromCellChecked g fuel word index row col v =
          liftRun (findWordFromCell g fuel word index row col v) ∧
        (findWordFromCell g fuel word index row col v = none ∨
          ∃ b, findWordFromCell g fuel word index row col v = some (b, v))
  | 0, _, _, _, _, _, _, _ => ⟨rfl, Or.inl rfl⟩
  | fuel + 1, word, index, row, col, v, hv, hidx => by
    rw [findWordFromCellChecked, findWordFromCell]
    by_cases h1 : index = word.length
    · rw [if_pos h1, if_pos h1]
      exact ⟨rfl, Or.inr ⟨true, rfl⟩⟩
    · rw [if_neg h1, if_neg h1]
      by_cases hout : row < 0 ∨ row ≥ g.boardSize ∨ col < 0 ∨ col ≥ g.boardSize
      · have hguard : row < 0 ∨ row ≥ g.boardSize ∨ col < 0 ∨ col ≥ g.boardSize ∨
            visitedAt v row col = true ∨ word[index]? ≠ some (boardAt g row col) := by
          rcases hout with h | h | h | h
          · exact Or.inl h
          · exact Or.inr (Or.inl h)
          · exact Or.inr (Or.inr (Or.inl h))
          · exact Or.inr (Or.inr (Or.inr (Or.inl h)))
        rw [if_pos hout, if_pos hguard]
        exact ⟨rfl, Or.inr ⟨false, rfl⟩⟩
      · rw [if_neg hout]
        push_neg at hout
        obtain ⟨hr0, hr1, hc0, hc1⟩ := hout
        have hreadv : readChecked v row col = .ok (visitedAt v row col) :=
          readChecked_eq hv.1 hv.2 hr0 hr1 hc0 hc1 false
        have hreadb : readChecked g.board row col = .ok (boardAt g row col) :=
          readChecked_eq hb.1 hb.2 hr0 hr1 hc0 hc1 (Char.ofNat 0)
        have hlt : index < word.length := by omega
        have hword : word[index]? = some word[index] := List.getElem?_eq_getElem hlt
        rw [hreadv]
        cases hvis : visitedAt v row col with
        | true =>
          have hguard : row < 0 ∨ row ≥ g.boardSize ∨ col < 0 ∨ col ≥ g.boardSize ∨
              true = true ∨ word[index]? ≠ some (boardAt g row col) :=
            Or.inr (Or.inr (Or.inr (Or.inr (Or.inl rfl))))
          rw [if_pos hguard]
          exact ⟨rfl, Or.inr ⟨false, rfl⟩⟩
        | false =>
          simp only [hreadb, hword]
          by_cases hm : boardAt g row col ≠ word[index]
          · have hguard : row < 0 ∨ row ≥ g.boardSize ∨ col < 0 ∨ col ≥ g.boardSize ∨
                false = true ∨ some word[index] ≠ some (boardAt g row col) := by
              refine Or.inr (Or.inr (Or.inr (Or.inr (Or.inr ?_))))
              intro h
              exact hm (Option.some.inj h).symm
            rw [if_pos hm, if_pos hguard]
            exact ⟨rfl, Or.inr ⟨false, rfl⟩⟩
          · have hguard : ¬(row < 0 ∨ row ≥ g.boardSize ∨ col < 0 ∨ col ≥ g.boardSize ∨
                false = true ∨ some word[index] ≠ some (boardAt g row col)) := by
              push_neg at hm
              rw [hm]
              simp only [Bool.false_eq_true, ne_eq, not_true_eq_false, or_false]
              omega
            rw [if_neg hm, if_neg hguard]
            have hwrite : writeChecked v row col true = .ok (setVisited v row col true) :=
              writeChecked_eq hv.1 hv.2 hr0 hr1 hc0 hc1 true
            have hv1 := square_setVisited hv row col true
            have hwrite' : writeChecked (setVisited v row col true) row col false =
                .ok (setVisited (setVisited v row col true) row col false) :=
              writeChecked_eq hv1.1 hv1.2 hr0 hr1 hc0 hc1 false
            obtain ⟨hloop, hframe⟩ := loopUntilFound_liftRun
              (fun i v =>
                loopUntilFoundExcept
                  (fun j v =>
                    if i ≠ 0 ∨ j ≠ 0 then
                      findWordFromCellChecked g fuel word (index + 1) (row + i) (col + j) v
                    else .ok (false, v))
                  deltas false v)
              (fun i v =>
                loopUntilFound
                  (fun j v =>
                    if i ≠ 0 ∨ j ≠ 0 then
                      findWordFromCell g fuel word (index + 1) (row + i) (col + j) v
                    else some (false, v))
                  deltas false v)
              (setVisited v row col true) deltas false
              (fun i _ => loopUntilFound_liftRun _ _ _ deltas false (fun j _ => by
                by_cases hij : i ≠ 0 ∨ j ≠ 0
                · simp only [if_pos hij]
                  exact findWordFromCellChecked_eq g hb fuel word (index + 1) (row + i)
                    (col + j) (setVisited v row col true) hv1 (by omega)
                · simp only [if_neg hij]
                  exact ⟨rfl, Or.inr ⟨false, rfl⟩⟩))
            rw [hwrite]
            simp only [hloop]
            rcases hframe with hnone | ⟨b, hb'⟩
            · rw [hnone]
              exact ⟨rfl, Or.inl rfl⟩
            · rw [hb']
              refine ⟨?_, Or.inr ⟨b, by simp only [setVisited_restore v row col hvis]⟩⟩
              simp only [liftRun, hwrite']

theorem forEach_liftRun {α : Type} (bodyC : α → SearchState → Except Fault SearchState)
    (bodyT : α → SearchState → Option SearchState) (cur : List Char) (v : Visited) :
    ∀ (xs : List α) (all : Finset (List Char)),
      (∀ x ∈ xs, ∀ all, bodyC x ⟨cur, v, all⟩ = liftRun (bodyT x ⟨cur, v, all⟩) ∧
        (bodyT x ⟨cur, v, all⟩ = none ∨ ∃ all', bodyT x ⟨cur, v, all⟩ = some ⟨cur, v, all'⟩)) →
      forEachExcept bodyC xs ⟨cur, v, all⟩ = liftRun (forEach bodyT xs ⟨cur, v, all⟩) ∧
        (forEach bodyT xs ⟨cur, v, all⟩ = none ∨
          ∃ all', forEach bodyT xs ⟨cur, v, all⟩ = some ⟨cur, v, all'⟩)
  | [], all, _ => ⟨rfl, Or.inr ⟨all, rfl⟩⟩
  | x :: xs, all, h => by
    obtain ⟨hx, hframe⟩ := h x (List.mem_cons_self x xs) all
    rcases hframe with hnone | ⟨all1, h1⟩
    · rw [hnone] at hx
      exact ⟨by simp only [forEachExcept, forEach, hx, hnone, liftRun],
        Or.inl (by simp only [forEach, hnone])⟩
    · rw [h1] at hx
      obtain ⟨h2, h3⟩ := forEach_liftRun bodyC bodyT cur v xs all1
        (fun y hy => h y (List.mem_cons_of_mem x hy))
      refine ⟨?_, ?_⟩
      · simp only [forEachExcept, forEach, hx, h1, liftRun]
        exact h2
      · simp only [forEach, h1]
        exact h3

/-- On a square board and from a square marker the checked
`findAllWordsHelper` is the unchecked one: it meets no access out of range.
The unchecked one leaves the candidate and the marker as they were. -/
theorem findAllWordsHelperChecked_eq (g : BoggleGame) (hb : BoardSquare g) :
    ∀ (fuel : Nat) (row col : Int) (cur : List Char) (v : Visited) (all : Finset (List Char)),
      Square g.boardSize v →
      findAllWordsHelperChecked g fuel row col ⟨cur, v, all⟩ =
          liftRun (findAllWordsHelper g fuel row col ⟨cur, v, all⟩) ∧
        (findAllWordsHelper g fuel row col ⟨cur, v, all⟩ = none ∨
          ∃ all', findAllWordsHelper g fuel row col ⟨cur, v, all⟩ = some ⟨cur, v, all'⟩)
  | 0, _, _, _, _, _, _ => ⟨rfl, Or.inl rfl⟩
  | fuel + 1, row, col, cur, v, all, hv => by
    rw [findAllWordsHelperChecked, findAllWordsHelper]
    by_cases hout : row < 0 ∨ row ≥ g.boardSize ∨ col < 0 ∨ col ≥ g.boardSize
    · have hguard : row < 0 ∨ row ≥ g.boardSize ∨ col < 0 ∨ col ≥ g.boardSize ∨
          visitedAt v row col = true := by
        rcases hout with h | h | h | h
        · exact Or.inl h
        · exact Or.inr (Or.inl h)
        · exact Or.inr (Or.inr (Or.inl h))
        · exact Or.inr (Or.inr (Or.inr (Or.inl h)))
      rw [if_pos hout, if_pos hguard]
      exact ⟨rfl, Or.inr ⟨all, rfl⟩⟩
    · rw [if_neg hout]
      push_neg at hout
      obtain ⟨hr0, hr1, hc0, hc1⟩ := hout
      have hreadv : readChecked v row col = .ok (visitedAt v row col) :=
        readChecked_eq hv.1 hv.2 hr0 hr1 hc0 hc1 false
      have hreadb : readChecked g.board row col = .ok (boardAt g row col) :=
        readChecked_eq hb.1 hb.2 hr0 hr1 hc0 hc1 (Char.ofNat 0)
      simp only [hreadv]
      cases hvis : visitedAt v row col with
      | true =>
        have hguard : row < 0 ∨ row ≥ g.boardSize ∨ col < 0 ∨ col ≥ g.boardSize ∨
            true = true := Or.inr (Or.inr (Or.inr (Or.inr rfl)))
        rw [if_pos hguard]
        exact ⟨rfl, Or.inr ⟨all, rfl⟩⟩
      | false =>
        have hguard : ¬(row < 0 ∨ row ≥ g.boardSize ∨ col < 0 ∨ col ≥ g.boardSize ∨
            false = true) := by
          simp only [Bool.false_eq_true, or_false]
          omega
        rw [if_neg hguard]
        have hwrite : writeChecked v row col true = .ok (setVisited v row col true) :=
          writeChecked_eq hv.1 hv.2 hr0 hr1 hc0 hc1 true
        have hv1 := square_setVisited hv row col true
        have hwrite' : writeChecked (setVisited v row col true) row col false =
            .ok (setVisited (setVisited v row col true) row col false) :=
          writeChecked_eq hv1.1 hv1.2 hr0 hr1 hc0 hc1 false
        have hloops : ∀ all0 : Finset (List Char),
            forEachExcept
              (fun i s =>
                forEachExcept
                  (fun j s =>
                    if i ≠ 0 ∨ j ≠ 0 then findAllWordsHelperChecked g fuel (row + i) (col + j) s
                    else .ok s)
                  deltas s)
              deltas ⟨cur ++ [boardAt g row col], setVisited v row col true, all0⟩ =
            liftRun (forEach
              (fun i s =>
                forEach
                  (fun j s =>
                    if i ≠ 0 ∨ j ≠ 0 then findAllWordsHelper g fuel (row + i) (col + j) s
                    else some s)
                  deltas s)
              deltas ⟨cur ++ [boardAt g row col], setVisited v row col true, all0⟩) ∧
            (forEach
              (fun i s =>
                forEach
                  (fun j s =>
                    if i ≠ 0 ∨ j ≠ 0 then findAllWordsHelper g fuel (row + i) (col + j) s
                    else some s)
                  deltas s)
              deltas ⟨cur ++ [boardAt g row col], setVisited v row col true, all0⟩ = none ∨
            ∃ all', forEach
              (fun i s =>
                forEach
                  (fun j s =>
                    if i ≠ 0 ∨ j ≠ 0 then findAllWordsHelper g fuel (row + i) (col + j) s
                    else some s)
                  deltas s)
              deltas ⟨cur ++ [boardAt g row col], setVisited v row col true, all0⟩ =
                some ⟨cur ++ [boardAt g row col], setVisited v row col true, all'⟩) := by
          intro all0
          apply forEach_liftRun
          intro i _ all1
          apply forEach_liftRun
          intro j _ all2
          by_cases hij : i ≠ 0 ∨ j ≠ 0
          · simp only [if_pos hij]
            exact findAllWordsHelperChecked_eq g hb fuel (row + i) (col + j) _ _ all2 hv1
          · simp only [if_neg hij]
            exact ⟨rfl, Or.inr ⟨all2, rfl⟩⟩
        simp only [hreadb, hwrite]
        by_cases hp : g.dictionary.containsPrefix (cur ++ [boardAt g row col]) = true
        · simp only [if_pos hp]
          obtain ⟨hrun, hframe⟩ := hloops
            (if (cur ++ [boardAt g row col]).length ≥ MIN_WORD_LENGTH ∧
                g.dictionary.contains (cur ++ [boardAt g row col]) = true then
              insert (cur ++ [boardAt g row col]) all
            else all)
          rw [hrun]
          rcases hframe with hnone | ⟨all', hsome⟩
          · rw [hnone]
            exact ⟨rfl, Or.inl rfl⟩
          · rw [hsome]
            refine ⟨?_, Or.inr ⟨all', by
              simp only [List.dropLast_concat, setVisited_restore v row col hvis]⟩⟩
            simp only [liftRun, hwrite']
        · simp only [if_neg hp]
          refine ⟨?_, Or.inr ⟨(if (cur ++ [boardAt g row col]).length ≥ MIN_WORD_LENGTH ∧
                g.dictionary.contains (cur ++ [boardAt g row col]) = true then
              insert (cur ++ [boardAt g row col]) all
            else all), by
            simp only [List.dropLast_concat, setVisited_restore v row col hvis]⟩⟩
          simp only [liftRun, hwrite']

theorem findWordOnBoardChecked_eq (g : BoggleGame) (hb : BoardSquare g) (fuel : Nat)
    (word : List Char) :
    findWordOnBoardChecked g fuel word = liftRun (findWordOnBoard g fuel word) := by
  rw [findWordOnBoardChecked, findWordOnBoard]
  by_cases h1 : word = [] ∨ word.length > g.boardSize * g.boardSize
  · rw [if_pos h1, if_pos h1]
    rfl
  · rw [if_neg h1, if_neg h1, findWordOnBoardLoop]
    obtain ⟨hloop, hframe⟩ := loopUntilFound_liftRun
      (fun i v =>
        loopUntilFoundExcept (fun j v => findWordFromCellChecked g fuel word 0 i j v)
          (indices g) false v)
      (fun i v =>
        loopUntilFound (fun j v => findWordFromCell g fuel word 0 i j v) (indices g) false v)
      (freshVisited g) (indices g) false
      (fun i _ => loopUntilFound_liftRun _ _ _ (indices g) false (fun j _ =>
        findWordFromCellChecked_eq g hb fuel word 0 i j (freshVisited g)
          (square_freshVisited g) (Nat.zero_le _)))
    rw [hloop]
    rcases hframe with hnone | ⟨b, hsome⟩
    · rw [hnone]
      rfl
    · rw [hsome]
      rfl

theorem findAllWordsChecked_eq (g : BoggleGame) (hb : BoardSquare g) (fuel : Nat)
    (all : Finset (List Char)) :
    findAllWordsChecked g fuel all = liftRun (findAllWords g fuel all) := by
  rw [findAllWordsChecked, findAllWords, findAllWordsLoop]
  obtain ⟨hloop, hframe⟩ := forEach_liftRun
    (fun i s => forEachExcept (fun j s => findAllWordsHelperChecked g fuel i j s) (indices g) s)
    (fun i s => forEach (fun j s => findAllWordsHelper g fuel i j s) (indices g) s)
    [] (freshVisited g) (indices g) all
    (fun i _ all1 => forEach_liftRun _ _ _ _ (indices g) all1 (fun j _ all2 =>
      findAllWordsHelperChecked_eq g hb fuel i j [] (freshVisited g) all2
        (square_freshVisited g)))
  rw [hloop]
  rcases hframe with hnone | ⟨all', hsome⟩
  · rw [hnone]
    rfl
  · rw [hsome]
    rfl

/-- The checks of the checked embedding do fire: on a marker that is not
square, or from an index beyond the end of the word, the run stops with
`Fault.outOfRange`. -/
theorem checked_run_faults (d : Lexicon) :
    findWordFromCellChecked (catGame d) 1 ['C'] 0 0 0 [] = .error Fault.outOfRange ∧
      findWordFromCellChecked (catGame d) 1 ['C'] 2 0 0 [[false, false], [false, false]] =
        .error Fault.outOfRange ∧
      findAllWordsHelperChecked (catGame d) 1 0 1 ⟨[], [[false], [false]], ∅⟩ =
        .error Fault.outOfRange :=
  ⟨rfl, rfl, rfl⟩

/-- C19: when the board and the marker are `boardSize × boardSize`, every
access `board[row][col]`, `visited[row][col]` and `word[index]` that
`findWordOnBoard`, `findWordFromCell`, `findAllWords` and `findAllWordsHelper`
perform is within range, for every row and column and every index from 0 to
the length of the word: for every budget the run with checked accesses is the
run of the embedding, which never stops with `Fault.outOfRange`. -/
theorem accesses_in_range (g : BoggleGame) (hb : BoardSquare g) (fuel : Nat) :
    (∀ word index row col visited, Square g.boardSize visited → index ≤ word.length →
        findWordFromCellChecked g fuel word index row col visited =
          liftRun (findWordFromCell g fuel word index row col visited)) ∧
      (∀ row col s, Square g.boardSize s.visited →
        findAllWordsHelperChecked g fuel row col s =
          liftRun (findAllWordsHelper g fuel row col s)) ∧
      (∀ word, findWordOnBoardChecked g fuel word = liftRun (findWordOnBoard g fuel word)) ∧
      (∀ all, findAllWordsChecked g fuel all = liftRun (findAllWords g fuel all)) ∧
      (∀ word index row col visited, Square g.boardSize visited → index ≤ word.length →
        findWordFromCellChecked g fuel word index row col visited ≠
          .error Fault.outOfRange) ∧
      (∀ row col s, Square g.boardSize s.visited →
        findAllWordsHelperChecked g fuel row col s ≠ .error Fault.outOfRange) ∧
      (∀ word, findWordOnBoardChecked g fuel word ≠ .error Fault.outOfRange) ∧
      (∀ all, findAllWordsChecked g fuel all ≠ .error Fault.outOfRange) := by
  have hlift : ∀ {α : Type} (r : Option α), liftRun r ≠ .error Fault.outOfRange := by
    intro α r
    cases r with
    | none => simp [liftRun]
    | some a => simp [liftRun]
  have h1 : ∀ word index row col visited, Square g.boardSize visited → index ≤ word.length →
      findWordFromCellChecked g fuel word index row col visited =
        liftRun (findWordFromCell g fuel word index row col visited) :=
    fun word index row col visited hv hidx =>
      (findWordFromCellChecked_eq g hb fuel word index row col visited hv hidx).1
  have h2 : ∀ row col (s : SearchState), Square g.boardSize s.visited →
      findAllWordsHelperChecked g fuel row col s =
        liftRun (findAllWordsHelper g fuel row col s) :=
    fun row col s hv =>
      (findAllWordsHelperChecked_eq g hb fuel row col s.currentWord s.visited s.allWords hv).1
  refine ⟨h1, h2, findWordOnBoardChecked_eq g hb fuel, findAllWordsChecked_eq g hb fuel,
    ?_, ?_, ?_, ?_⟩
  · intro word index row col visited hv hidx
    rw [h1 word index row col visited hv hidx]
    exact hlift _
  · intro row col s hv
    rw [h2 row col s hv]
    exact hlift _
  · intro word
    rw [findWordOnBoardChecked_eq g hb fuel]
    exact hlift _
  · intro all
    rw [findAllWordsChecked_eq g hb fuel]
    exact hlift _

theorem accesses_in_range_witness :
    BoardSquare (catGame (wordsLexicon catWords)) ∧
      (∀ word index row col visited,
        Square (catGame (wordsLexicon catWords)).boardSize visited → index ≤ word.length →
        findWordFromCellChecked (catGame (wordsLexicon catWords)) 5 word index row col visited =
          liftRun (findWordFromCell (catGame (wordsLexicon catWords)) 5 word index row col
            visited)) ∧
      (∀ row col s, Square (catGame (wordsLexicon catWords)).boardSize s.visited →
        findAllWordsHelperChecked (catGame (wordsLexicon catWords)) 5 row col s =
          liftRun (findAllWordsHelper (catGame (wordsLexicon catWords)) 5 row col s)) ∧
      (∀ word, findWordOnBoardChecked (catGame (wordsLexicon catWords)) 5 word =
        liftRun (findWordOnBoard (catGame (wordsLexicon catWords)) 5 word)) ∧
      (∀ all, findAllWordsChecked (catGame (wordsLexicon catWords)) 5 all =
        liftRun (findAllWords (catGame (wordsLexicon catWords)) 5 all)) ∧
      (∀ word index row col visited,
        Square (catGame (wordsLexicon catWords)).boardSize visited → index ≤ word.length →
        findWordFromCellChecked (catGame (wordsLexicon catWords)) 5 word index row col visited ≠
          .error Fault.outOfRange) ∧
      (∀ row col s, Square (catGame (wordsLexicon catWords)).boardSize s.visited →
        findAllWordsHelperChecked (catGame (wordsLexicon catWords)) 5 row col s ≠
          .error Fault.outOfRange) ∧
      (∀ word, findWordOnBoardChecked (catGame (wordsLexicon catWords)) 5 word ≠
        .error Fault.outOfRange) ∧
      (∀ all, findAllWordsChecked (catGame (wordsLexicon catWords)) 5 all ≠
        .error Fault.outOfRange) :=
  ⟨by simp [BoardSquare, catGame, catBoard],
    accesses_in_range (catGame (wordsLexicon catWords))
      (by simp [BoardSquare, catGame, catBoard]) 5⟩

/-! ## The recorded run and the partial path -/

theorem forEach_erase {α σ τ : Type} (bodyL : α → σ × τ → Option (σ × τ))
    (bodyT : α → σ → Option σ) :
    ∀ (xs : List α), (∀ x ∈ xs, ∀ st, (bodyL x st).map Prod.fst = bodyT x st.1) →
      ∀ st, (forEach bodyL xs st).map Prod.fst = forEach bodyT xs st.1
  | [], _, _ => rfl
  | x :: xs, h, st => by
    have hx := h x (List.mem_cons_self x xs) st
    simp only [forEach]
    cases hL : bodyL x st with
    | none =>
      rw [hL] at hx
      rw [← hx]
      rfl
    | some st' =>
      rw [hL] at hx
      rw [← hx]
      exact forEach_erase bodyL bodyT xs (fun y hy => h y (List.mem_cons_of_mem x hy)) st'

/-- Without its record the recording helper is `findAllWordsHelper`. -/
theorem findAllWordsHelperLog_erase (g : BoggleGame) :
    ∀ (fuel : Nat) (row col : Int) (st : SearchState × List CallEntry),
      (findAllWordsHelperLog g fuel row col st).map Prod.fst =
        findAllWordsHelper g fuel row col st.1
  | 0, _, _, _ => rfl
  | fuel + 1, row, col, (s, log) => by
    rw [findAllWordsHelperLog, findAllWordsHelper]
    by_cases h1 : row < 0 ∨ row ≥ g.boardSize ∨ col < 0 ∨ col ≥ g.boardSize ∨
        visitedAt s.visited row col = true
    · rw [if_pos h1, if_pos h1]
      rfl
    · rw [if_neg h1, if_neg h1]
      have hloops : ∀ st : SearchState × List CallEntry,
          (forEach
            (fun i st =>
              forEach
                (fun j st =>
                  if i ≠ 0 ∨ j ≠ 0 then findAllWordsHelperLog g fuel (row + i) (col + j) st
                  else some st)
                deltas st)
            deltas st).map Prod.fst =
          forEach
            (fun i s =>
              forEach
                (fun j s =>
                  if i ≠ 0 ∨ j ≠ 0 then findAllWordsHelper g fuel (row + i) (col + j) s
                  else some s)
                deltas s)
            deltas st.1 := by
        apply forEach_erase
        intro i _
        apply forEach_erase
        intro j _ st
        by_cases hij : i ≠ 0 ∨ j ≠ 0
        · simp only [if_pos hij]
          exact findAllWordsHelperLog_erase g fuel (row + i) (col + j) st
        · simp only [if_neg hij]
          rfl
      dsimp only
      by_cases hp : g.dictionary.containsPrefix (s.currentWord ++ [boardAt g row col]) = true
      · simp only [if_pos hp]
        have h2 := hloops
          (⟨s.currentWord ++ [boardAt g row col], setVisited s.visited row col true,
            if (s.currentWord ++ [boardAt g row col]).length ≥ MIN_WORD_LENGTH ∧
                g.dictionary.contains (s.currentWord ++ [boardAt g row col]) = true then
              insert (s.currentWord ++ [boardAt g row col]) s.allWords
            else s.allWords⟩, log ++ [⟨row, col, s.currentWord, s.visited⟩])
        simp only at h2
        rw [← h2]
        cases forEach
            (fun i st =>
              forEach
                (fun j st =>
                  if i ≠ 0 ∨ j ≠ 0 then findAllWordsHelperLog g fuel (row + i) (col + j) st
                  else some st)
                deltas st)
            deltas
            (⟨s.currentWord ++ [boardAt g row col], setVisited s.visited row col true,
              if (s.currentWord ++ [boardAt g row col]).length ≥ MIN_WORD_LENGTH ∧
                  g.dictionary.contains (s.currentWord ++ [boardAt g row col]) = true then
                insert (s.currentWord ++ [boardAt g row col]) s.allWords
              else s.allWords⟩, log ++ [⟨row, col, s.currentWord, s.visited⟩]) with
        | none => rfl
        | some r => rfl
      · simp only [if_neg hp]
        rfl

theorem findAllWordsStart_erase (g : BoggleGame) (fuel : Nat) (i j : Int)
    (st : SearchState × List ((Int × Int) × CallEntry)) :
    (findAllWordsStart g fuel i j st).map Prod.fst = findAllWordsHelper g fuel i j st.1 := by
  rw [findAllWordsStart, ← findAllWordsHelperLog_erase g fuel i j (st.1, [])]
  cases findAllWordsHelperLog g fuel i j (st.1, []) with
  | none => rfl
  | some r => rfl

/-- Without its record the recording `findAllWords` is `findAllWords`. -/
theorem findAllWordsLog_erase (g : BoggleGame) (fuel : Nat) (all : Finset (List Char)) :
    (findAllWordsLog g fuel all).map (fun r => r.1.allWords) = findAllWords g fuel all := by
  have h : (findAllWordsLog g fuel all).map Prod.fst = findAllWordsLoop g fuel all := by
    rw [findAllWordsLog, findAllWordsLoop]
    apply forEach_erase
    intro i _
    apply forEach_erase
    intro j _ st
    exact findAllWordsStart_erase g fuel i j st
  rw [findAllWords, ← h]
  cases findAllWordsLog g fuel all with
  | none => rfl
  | some r => rfl

theorem pathState_nil (g : BoggleGame) : PathState g [] [] (freshVisited g) := by
  refine ⟨List.nodup_nil, fun _ h => absurd h (List.not_mem_nil _), List.chain'_nil, ?_, rfl⟩
  intro p _
  rw [visitedAt_freshVisited]
  simp

/-- Entering an unmarked grid cell next to the end of the path extends the path,
the candidate and the marker together. -/
theorem pathState_extend (g : BoggleGame) {path : List Cell} {cur : List Char} {v : Visited}
    (hv : Square g.boardSize v) (h : PathState g path cur v) {row col : Int}
    (hin : InGrid g (row, col)) (hvis : visitedAt v row col = false)
    (hadj : ∀ q ∈ path.getLast?, Adjacent q (row, col)) :
    PathState g (path ++ [(row, col)]) (cur ++ [boardAt g row col])
      (setVisited v row col true) := by
  obtain ⟨hnd, hgrid, hch, hmark, hcur⟩ := h
  have hnot : (row, col) ∉ path := by
    intro hmem
    have h1 := (hmark (row, col) hin).mpr hmem
    simp only at h1
    rw [hvis] at h1
    exact Bool.noConfusion h1
  have hself : visitedAt (setVisited v row col true) row col = true := by
    have h1 := hin
    simp only [InGrid] at h1
    exact visitedAt_setVisited_self hv (by omega) (by omega) true
  refine ⟨?_, ?_, ?_, ?_, ?_⟩
  · rw [List.nodup_append]
    refine ⟨hnd, List.nodup_singleton _, ?_⟩
    intro a ha hb
    rw [List.mem_singleton] at hb
    exact hnot (hb ▸ ha)
  · intro p hp
    rcases List.mem_append.mp hp with h1 | h1
    · exact hgrid p h1
    · rw [List.mem_singleton] at h1
      rw [h1]
      exact hin
  · apply List.Chain'.append hch (List.chain'_singleton _)
    intro x hx y hy
    simp only [List.head?_cons, Option.mem_def, Option.some.injEq] at hy
    rw [← hy]
    exact hadj x hx
  · intro p hp
    by_cases hpe : p = (row, col)
    · rw [hpe]
      simp only [hself, List.mem_append, List.mem_singleton, or_true]
    · rw [visitedAt_setVisited_other v (toNat_ne_of_ne hin hp hpe), hmark p hp]
      simp only [List.mem_append, List.mem_singleton, hpe, or_false]
  · rw [hcur, letters, letters, List.map_append]
    rfl

/-- The candidate has as many letters as there are marked cells. -/
theorem pathState_card (g : BoggleGame) {path : List Cell} {cur : List Char} {v : Visited}
    (h : PathState g path cur v) : cur.length = (marked g v).card := by
  obtain ⟨hnd, hgrid, -, hmark, hcur⟩ := h
  have heq : marked g v = path.toFinset := by
    ext p
    simp only [marked, Finset.mem_filter, Finset.mem_product, Finset.mem_Ico, List.mem_toFinset]
    constructor
    · rintro ⟨⟨⟨h1, h2⟩, h3, h4⟩, h5⟩
      exact (hmark p ⟨h1, h2, h3, h4⟩).mp h5
    · intro hp
      have h1 := hgrid p hp
      have h2 := (hmark p h1).mpr hp
      simp only [InGrid] at h1
      exact ⟨⟨⟨h1.1, h1.2.1⟩, h1.2.2.1, h1.2.2.2⟩, h2⟩
  rw [heq, List.toFinset_card_of_nodup hnd, hcur, letters, List.length_map]

theorem forEach_log {α β : Type}
    (body : α → SearchState × List β → Option (SearchState × List β))
    (cur : List Char) (v : Visited) (Q : β → Prop) (M : α → List β) :
    ∀ (xs : List α) (all : Finset (List Char)) (log : List β),
      (∀ x ∈ xs, ∀ all log, ∃ all' es,
        body x (⟨cur, v, all⟩, log) = some (⟨cur, v, all'⟩, log ++ es) ∧
          (∀ e ∈ es, Q e) ∧ ∀ e ∈ M x, e ∈ es) →
      ∃ all' es, forEach body xs (⟨cur, v, all⟩, log) = some (⟨cur, v, all'⟩, log ++ es) ∧
        (∀ e ∈ es, Q e) ∧ ∀ x ∈ xs, ∀ e ∈ M x, e ∈ es
  | [], all, log, _ =>
    ⟨all, [], by simp [forEach], fun _ h => absurd h (List.not_mem_nil _),
      fun _ h => absurd h (List.not_mem_nil _)⟩
  | x :: xs, all, log, h => by
    obtain ⟨all1, es1, h1, hQ1, hM1⟩ := h x (List.mem_cons_self x xs) all log
    obtain ⟨all2, es2, h2, hQ2, hM2⟩ := forEach_log body cur v Q M xs all1 (log ++ es1)
      (fun y hy => h y (List.mem_cons_of_mem x hy))
    refine ⟨all2, es1 ++ es2, ?_, ?_, ?_⟩
    · simp only [forEach, h1, h2, List.append_assoc]
    · intro e he
      rcases List.mem_append.mp he with h3 | h3
      · exact hQ1 e h3
      · exact hQ2 e h3
    · intro y hy e he
      rcases List.mem_cons.mp hy with h3 | h3
      · rw [h3] at he
        exact List.mem_append_left _ (hM1 e he)
      · exact List.mem_append_right _ (hM2 y h3 e he)

/-- What a call of the recording helper records, when it is entered in the
state of the partial path `path` on a cell next to the end of that path: its
own entry, in the state of `path`, and entries in the states of paths that
extend `path` by the cell of the call. -/
theorem findAllWordsHelperLog_spec (g : BoggleGame) :
    ∀ (fuel : Nat) (row col : Int) (cur : List Char) (v : Visited) (all : Finset (List Char))
      (log : List CallEntry) (path : List Cell),
      Square g.boardSize v → (unmarked g v).card < fuel → PathState g path cur v →
      (∀ q ∈ path.getLast?, Adjacent q (row, col)) →
      ∃ all' es, findAllWordsHelperLog g fuel row col (⟨cur, v, all⟩, log) =
          some (⟨cur, v, all'⟩, log ++ es) ∧
        (∀ e ∈ es, ∃ path', PathState g path' e.currentWord e.visited ∧
          (path' = path ∧ e.row = row ∧ e.col = col ∨ (path ++ [(row, col)]) <+: path')) ∧
        (⟨row, col, cur, v⟩ : CallEntry) ∈ es
  | 0, _, _, _, _, _, _, _, _, h, _, _ => absurd h (Nat.not_lt_zero _)
  | fuel + 1, row, col, cur, v, all, log, path, hv, hfuel, hps, hadj => by
    rw [findAllWordsHelperLog]
    by_cases h1 : row < 0 ∨ row ≥ g.boardSize ∨ col < 0 ∨ col ≥ g.boardSize ∨
        visitedAt v row col = true
    · rw [if_pos h1]
      refine ⟨all, [⟨row, col, cur, v⟩], rfl, ?_, List.mem_singleton.mpr rfl⟩
      intro e he
      rw [List.mem_singleton] at he
      rw [he]
      exact ⟨path, hps, Or.inl ⟨rfl, rfl, rfl⟩⟩
    · rw [if_neg h1]
      push_neg at h1
      obtain ⟨hr0, hr1, hc0, hc1, hvis⟩ := h1
      have hvis' : visitedAt v row col = false := by simpa using hvis
      have hin : InGrid g (row, col) := ⟨hr0, hr1, hc0, hc1⟩
      have hv1 := square_setVisited hv row col true
      have hcard := card_unmarked_setVisited g hv hin hvis'
      have hps1 := pathState_extend g hv hps hin hvis' hadj
      have hloops : ∀ (all0 : Finset (List Char)) (log0 : List CallEntry), ∃ all' es,
          forEach
            (fun i st =>
              forEach
                (fun j st =>
                  if i ≠ 0 ∨ j ≠ 0 then findAllWordsHelperLog g fuel (row + i) (col + j) st
                  else some st)
                deltas st)
            deltas (⟨cur ++ [boardAt g row col], setVisited v row col true, all0⟩, log0) =
              some (⟨cur ++ [boardAt g row col], setVisited v row col true, all'⟩,
                log0 ++ es) ∧
          (∀ e ∈ es, ∃ path', PathState g path' e.currentWord e.visited ∧
            (path ++ [(row, col)]) <+: path') ∧
          ∀ i ∈ deltas, ∀ e ∈ (fun _ : Int => ([] : List CallEntry)) i, e ∈ es := by
        intro all0 log0
        apply forEach_log _ _ _ _ (fun _ : Int => ([] : List CallEntry))
        intro i hi all1 log1
        obtain ⟨all2, es2, hrun2, hQ2, -⟩ := forEach_log
          (fun j st =>
            if i ≠ 0 ∨ j ≠ 0 then findAllWordsHelperLog g fuel (row + i) (col + j) st
            else some st)
          (cur ++ [boardAt g row col]) (setVisited v row col true)
          (fun e => ∃ path', PathState g path' e.currentWord e.visited ∧
            (path ++ [(row, col)]) <+: path')
          (fun _ : Int => ([] : List CallEntry)) deltas all1 log1
          (fun j hj all3 log3 => by
            by_cases hij : i ≠ 0 ∨ j ≠ 0
            · obtain ⟨all4, es4, hrun4, hQ4, -⟩ := findAllWordsHelperLog_spec g fuel (row + i)
                (col + j) (cur ++ [boardAt g row col]) (setVisited v row col true) all3 log3
                (path ++ [(row, col)]) hv1 (by simp only at hcard; omega) hps1
                (by
                  intro q hq
                  rw [List.getLast?_append, List.getLast?_singleton] at hq
                  have hq' : some (row, col) = some q := hq
                  rw [← Option.some.inj hq']
                  exact (adjacent_iff_delta _ _).mpr ⟨i, hi, j, hj, rfl⟩)
              refine ⟨all4, es4, by simp only [if_pos hij]; exact hrun4, ?_,
                fun _ h => absurd h (List.not_mem_nil _)⟩
              intro e he
              obtain ⟨path', hp', hor⟩ := hQ4 e he
              refine ⟨path', hp', ?_⟩
              rcases hor with ⟨h2, -, -⟩ | ⟨t, ht⟩
              · exact ⟨[], by rw [h2, List.append_nil]⟩
              · exact ⟨[(row + i, col + j)] ++ t, by rw [← ht]; simp only [List.append_assoc]⟩
            · exact ⟨all3, [], by simp only [if_neg hij, List.append_nil],
                fun _ h => absurd h (List.not_mem_nil _),
                fun _ h => absurd h (List.not_mem_nil _)⟩)
        exact ⟨all2, es2, hrun2, hQ2, fun _ h => absurd h (List.not_mem_nil _)⟩
      by_cases hp : g.dictionary.containsPrefix (cur ++ [boardAt g row col]) = true
      · obtain ⟨all', es, hrun, hQ, -⟩ := hloops
          (if (cur ++ [boardAt g row col]).length ≥ MIN_WORD_LENGTH ∧
              g.dictionary.contains (cur ++ [boardAt g row col]) = true then
            insert (cur ++ [boardAt g row col]) all
          else all) (log ++ [⟨row, col, cur, v⟩])
        refine ⟨all', [⟨row, col, cur, v⟩] ++ es, ?_, ?_, by simp⟩
        · simp only [if_pos hp, hrun, List.dropLast_concat,
            setVisited_restore v row col hvis', List.append_assoc]
        · intro e he
          rcases List.mem_append.mp he with h2 | h2
          · rw [List.mem_singleton] at h2
            rw [h2]
            exact ⟨path, hps, Or.inl ⟨rfl, rfl, rfl⟩⟩
          · obtain ⟨path', hp', hpre⟩ := hQ e h2
            exact ⟨path', hp', Or.inr hpre⟩
      · refine ⟨(if (cur ++ [boardAt g row col]).length ≥ MIN_WORD_LENGTH ∧
              g.dictionary.contains (cur ++ [boardAt g row col]) = true then
            insert (cur ++ [boardAt g row col]) all
          else all), [⟨row, col, cur, v⟩], ?_, ?_, List.mem_singleton.mpr rfl⟩
        · simp only [if_neg hp, List.dropLast_concat, setVisited_restore v row col hvis']
        · intro e he
          rw [List.mem_singleton] at he
          rw [he]
          exact ⟨path, hps, Or.inl ⟨rfl, rfl, rfl⟩⟩

theorem findAllWordsStart_spec (g : BoggleGame) (fuel : Nat)
    (hfuel : g.boardSize * g.boardSize < fuel) (i j : Int) (all : Finset (List Char))
    (log : List (Cell × CallEntry)) :
    ∃ all' es, findAllWordsStart g fuel i j (⟨[], freshVisited g, all⟩, log) =
        some (⟨[], freshVisited g, all'⟩, log ++ es) ∧
      (∀ te ∈ es, ∃ path : List Cell,
        (path = [] ∧ (te.2.row, te.2.col) = te.1 ∨ path.head? = some te.1) ∧
          PathState g path te.2.currentWord te.2.visited) ∧
      ∀ te ∈ [((i, j), (⟨i, j, [], freshVisited g⟩ : CallEntry))], te ∈ es := by
  obtain ⟨all', es, hrun, hQ, hmem⟩ := findAllWordsHelperLog_spec g fuel i j []
    (freshVisited g) all [] [] (square_freshVisited g)
    (by rw [card_unmarked_freshVisited]; exact hfuel) (pathState_nil g)
    (fun q hq => by simp at hq)
  refine ⟨all', es.map (fun e => ((i, j), e)), ?_, ?_, ?_⟩
  · simp only [findAllWordsStart, hrun, List.nil_append]
  · intro te hte
    obtain ⟨e, he, rfl⟩ := List.mem_map.mp hte
    obtain ⟨path', hp', hor⟩ := hQ e he
    refine ⟨path', ?_, hp'⟩
    rcases hor with ⟨h1, h2, h3⟩ | ⟨t, ht⟩
    · exact Or.inl ⟨h1, by rw [h2, h3]⟩
    · right
      rw [← ht]
      rfl
  · intro te hte
    rw [List.mem_singleton] at hte
    rw [hte]
    exact List.mem_map.mpr ⟨_, hmem, rfl⟩

/-- C18: in the run of `findAllWords`, with a budget above the number of
cells, at every entry to `findAllWordsHelper` there is a path of pairwise
distinct grid cells, consecutive ones adjacent, that is empty when the entry
is that of the top-level call and otherwise starts at the start cell of the
top-level call, such that the marked grid cells are exactly the cells of the
path and the candidate is its letters in path order; so the candidate has as
many letters as there are marked cells. The entries are those recorded by the
recording run, whose result is that of `findAllWords` and which records, among
others, the entry of every top-level call. -/
theorem findAllWords_path_invariant (g : BoggleGame) (fuel : Nat)
    (hfuel : g.boardSize * g.boardSize < fuel) (all : Finset (List Char)) :
    ∃ s log, findAllWordsLog g fuel all = some (s, log) ∧
      findAllWords g fuel all = some s.allWords ∧
      (∀ i ∈ indices g, ∀ j ∈ indices g,
        ((i, j), (⟨i, j, [], freshVisited g⟩ : CallEntry)) ∈ log) ∧
      ∀ start e, (start, e) ∈ log → ∃ path : List Cell,
        (path = [] ∧ (e.row, e.col) = start ∨ path.head? = some start) ∧
          path.Nodup ∧ (∀ p ∈ path, InGrid g p) ∧ path.Chain' Adjacent ∧
          (∀ p, InGrid g p → (visitedAt e.visited p.1 p.2 = true ↔ p ∈ path)) ∧
          e.currentWord = letters g path ∧
          e.currentWord.length = (marked g e.visited).card := by
  obtain ⟨all', es, hrun, hQ, hM⟩ := forEach_log
    (fun i st => forEach (fun j st => findAllWordsStart g fuel i j st) (indices g) st)
    [] (freshVisited g)
    (fun te : Cell × CallEntry => ∃ path : List Cell,
      (path = [] ∧ (te.2.row, te.2.col) = te.1 ∨ path.head? = some te.1) ∧
        PathState g path te.2.currentWord te.2.visited)
    (fun i => (indices g).map (fun j => ((i, j), (⟨i, j, [], freshVisited g⟩ : CallEntry))))
    (indices g) all []
    (fun i _ all1 log1 => by
      obtain ⟨all2, es2, hrun2, hQ2, hM2⟩ := forEach_log
        (fun j st => findAllWordsStart g fuel i j st) [] (freshVisited g)
        (fun te : Cell × CallEntry => ∃ path : List Cell,
          (path = [] ∧ (te.2.row, te.2.col) = te.1 ∨ path.head? = some te.1) ∧
            PathState g path te.2.currentWord te.2.visited)
        (fun j => [((i, j), (⟨i, j, [], freshVisited g⟩ : CallEntry))])
        (indices g) all1 log1
        (fun j _ all3 log3 => findAllWordsStart_spec g fuel hfuel i j all3 log3)
      refine ⟨all2, es2, hrun2, hQ2, ?_⟩
      intro te hte
      obtain ⟨j, hj, rfl⟩ := List.mem_map.mp hte
      exact hM2 j hj _ (List.mem_singleton.mpr rfl))
  rw [List.nil_append] at hrun
  have hlog : findAllWordsLog g fuel all = some (⟨[], freshVisited g, all'⟩, es) := hrun
  refine ⟨⟨[], freshVisited g, all'⟩, es, hlog, ?_, ?_, ?_⟩
  · rw [← findAllWordsLog_erase, hlog]
    rfl
  · intro i hi j hj
    exact hM i hi _ (List.mem_map.mpr ⟨j, hj, rfl⟩)
  · intro start e he
    obtain ⟨path, hstart, hps⟩ := hQ (start, e) he
    exact ⟨path, hstart, hps.1, hps.2.1, hps.2.2.1, hps.2.2.2.1, hps.2.2.2.2,
      pathState_card g hps⟩

theorem findAllWords_path_invariant_witness :
    (catGame (wordsLexicon catWords)).boardSize * (catGame (wordsLexicon catWords)).boardSize < 5 ∧
      ∃ s log, findAllWordsLog (catGame (wordsLexicon catWords)) 5 ∅ = some (s, log) ∧
        findAllWords (catGame (wordsLexicon catWords)) 5 ∅ = some s.allWords ∧
        (∀ i ∈ indices (catGame (wordsLexicon catWords)),
          ∀ j ∈ indices (catGame (wordsLexicon catWords)),
            ((i, j), (⟨i, j, [], freshVisited (catGame (wordsLexicon catWords))⟩ : CallEntry)) ∈
              log) ∧
        ∀ start e, (start, e) ∈ log → ∃ path : List Cell,
          (path = [] ∧ (e.row, e.col) = start ∨ path.head? = some start) ∧
            path.Nodup ∧ (∀ p ∈ path, InGrid (catGame (wordsLexicon catWords)) p) ∧
            path.Chain' Adjacent ∧
            (∀ p, InGrid (catGame (wordsLexicon catWords)) p →
              (visitedAt e.visited p.1 p.2 = true ↔ p ∈ path)) ∧
            e.currentWord = letters (catGame (wordsLexicon catWords)) path ∧
            e.currentWord.length = (marked (catGame (wordsLexicon catWords)) e.visited).card :=
  ⟨by decide, findAllWords_path_invariant (catGame (wordsLexicon catWords)) 5 (by decide) ∅⟩

end Boggle
